import Mathlib

/-!
# Verification of the ClangDataStructureToolkit containers

This file gives a shallow embedding, in Lean 4, of the container operations of
the ClangDataStructureToolkit repository (dynamic arrays, stacks, a separate
chaining hashmap, an open addressing hash set, a binary max heap and a priority
queue over 64-bit integers), together with proofs and refutations of the
testable properties stated in the repository specification.

Modelling conventions, applied uniformly:
* C `int64_t` values are modelled as `Int`; the two's complement wrap of an
  `int64_t` is made explicit (`wrap64`) at the single place where the C code
  can overflow (negating a key in the chaining hashmap hash function).
* Backing buffers are modelled by their live prefix (a `List`), or by a total
  function `Nat -> slot` for the open addressing table, plus the tracked
  `capacity`; cells beyond the live region are never read by the C code before
  being written, so no information is lost.
* `malloc`/`calloc`/`realloc`/`strdup` success is the default; for the
  operations where an allocation failure path matters (claim C7), the
  operation takes explicit `Bool` flags, one per allocation site in the C
  function, telling whether that allocation succeeds.  The plain operation is
  the all-allocations-succeed instance.
* The C load factor tests compare `(float)(size+1)/capacity` (or `double`)
  against a threshold; both sides are exactly representable for all sizes the
  structures can reach in practice, so the test is modelled as the exact
  comparison of rational numbers.
* Loops are modelled by fuel-indexed structural recursion (the fuel is the
  loop bound from the C code), so that every definition is executable and
  concrete runs can be checked by `decide`/`rfl`.
* Functions that call `exit(EXIT_FAILURE)` (empty-heap `peek`/`extract`) are
  modelled with an `Option` result: `none` is the process-aborting branch.
-/

/-! ## IntegerDynamicArray.c -/

/-- Model of `IntegerDynamicArray`: `data` is the live prefix
(`size = data.length`), `capacity` the allocated slot count. -/
structure IntegerDynamicArray where
  data : List Int
  capacity : Nat
  deriving Repr, DecidableEq

/-- Model of `initializeIntegerDynamicArray` (allocation succeeding):
empty live prefix with the requested capacity. -/
def newIntegerDynamicArray (initialCapacity : Nat) : IntegerDynamicArray :=
  { data := [], capacity := initialCapacity }

/-- Model of `appendIntegerDynamicArray` (allocations succeeding): when
`size == capacity` the capacity doubles, then the value is stored at the end. -/
def appendIntegerDynamicArray (a : IntegerDynamicArray) (value : Int) :
    IntegerDynamicArray :=
  let a := if a.data.length = a.capacity
    then { a with capacity := a.capacity * 2 } else a
  { a with data := a.data ++ [value] }

/-! ## src/integerStack.c -/

/-- Model of `integerStack`: `data` is the live prefix (`top = data.length`);
the C field named `size` is the capacity of the backing buffer. -/
structure IntegerStack where
  data : List Int
  size : Nat
  deriving Repr, DecidableEq

/-- Model of `initializeIntegerStack` (allocation succeeding). -/
def newIntegerStack (initialCapacity : Nat) : IntegerStack :=
  { data := [], size := initialCapacity }

/-- Model of `pushIntegerStack` (allocations succeeding): on `top == size`
the buffer doubles, then the value is stored at `top`. -/
def pushIntegerStack (s : IntegerStack) (value : Int) : IntegerStack :=
  let s := if s.data.length = s.size then { s with size := s.size * 2 } else s
  { s with data := s.data ++ [value] }

/-! ## src/stringStack.c -/

/-- Model of `StringStack`: `data` is the live prefix of owned strings
(`top = data.length`), `capacity` the allocated pointer count. -/
structure StringStack where
  data : List String
  capacity : Nat
  deriving Repr, DecidableEq

/-- Model of `initializeStringStack` (allocation succeeding). -/
def newStringStack (initialCapacity : Nat) : StringStack :=
  { data := [], capacity := initialCapacity }

/-- Model of `isFullStringStack`. -/
def isFullStringStack (s : StringStack) : Bool :=
  s.data.length = s.capacity

/-- Model of `pushStringStack` with one success flag per allocation site:
`reallocOk` for the growth `realloc`, `strdupOk` for the `strdup` of the
pushed string.  Returns the new stack state and the C `bool` result.
Note the C code grows the buffer first and only then duplicates the string;
a failing `strdup` therefore leaves the already grown capacity in place. -/
def pushStringStackA (reallocOk strdupOk : Bool) (s : StringStack)
    (value : String) : StringStack × Bool :=
  if isFullStringStack s then
    if reallocOk then
      let s := { s with capacity := s.capacity * 2 }
      if strdupOk then ({ s with data := s.data ++ [value] }, true)
      else (s, false)
    else (s, false)
  else
    if strdupOk then ({ s with data := s.data ++ [value] }, true)
    else (s, false)

/-- Model of `pushStringStack` with all allocations succeeding. -/
def pushStringStack (s : StringStack) (value : String) : StringStack × Bool :=
  pushStringStackA true true s value

/-! ## Doubling-growth capacity recurrence (shared by the three containers)

`capAfter c n` is the capacity after `n` successful appends into a growable
container created with capacity `c`: each append first doubles the capacity
if the current length has reached it. -/

/-- Capacity after `n` appends, starting from length `0`, capacity `c`. -/
def capAfter (c : Nat) : Nat → Nat
  | 0 => c
  | n + 1 => if n = capAfter c n then 2 * capAfter c n else capAfter c n

/-- `m` is the smallest power-of-two multiple of `c` that is at least `n`. -/
def IsLeastPow2Mult (c n m : Nat) : Prop :=
  (∃ j, m = c * 2 ^ j) ∧ n ≤ m ∧ ∀ mm, (∃ j, mm = c * 2 ^ j) → n ≤ mm → m ≤ mm

/-! ## stringDynamicArray.c

The "string dynamic array" is actually a singly linked list of owned C
strings; we model the chain as the list of its payloads (a C string is a
`List Char`, NUL not included) since `find`/`delete` only walk `head`
forward.  `strncmp(a, b, n) == 0` is modelled by `strncmpEq`, including the
NUL-terminator behaviour: comparison stops at a difference, at the end of
either string (where NUL differs from any further character), or after `n`
characters. -/

/-- `strncmpEq a b n` models `strncmp(a, b, n) == 0` on NUL-terminated
strings `a`, `b` (lists of their characters before the NUL). -/
def strncmpEq : List Char → List Char → Nat → Bool
  | _, _, 0 => true
  | [], [], _ + 1 => true
  | [], _ :: _, _ + 1 => false
  | _ :: _, [], _ + 1 => false
  | a :: as, b :: bs, n + 1 => a = b && strncmpEq as bs n

/-- Model of `findStringDynamicArray` on the chain of stored strings: the
index of the first stored string `s` with `strncmp(string, s, strlen(string))
== 0`, walking the chain from `head`. -/
def findStringDynamicArray (elems : List (List Char)) (string : List Char) :
    Option Nat :=
  match elems with
  | [] => none
  | s :: rest =>
    if strncmpEq string s string.length then some 0
    else (findStringDynamicArray rest string).map (· + 1)

/-- Model of `deleteStringDynamicArray` on the chain of stored strings:
unlinks the first stored string `s` with `strncmp(s, string, strlen(string))
== 0` (note the C `delete` passes the arguments to `strncmp` in the opposite
order from `find`); `none` models the `false` (not found) result. -/
def deleteStringDynamicArray (elems : List (List Char)) (string : List Char) :
    Option (List (List Char)) :=
  match elems with
  | [] => none
  | s :: rest =>
    if strncmpEq s string string.length then some rest
    else (deleteStringDynamicArray rest string).map (s :: ·)

/-! ## src/int64Hashmap.c and src/int64int64Hashmap.c

The two separate-chaining hashmaps are character-for-character the same
algorithm; they differ only in the value type stored in an entry (`void *`
versus `int64_t`).  We model them once, generically in the value type `A`:
`int64Hashmap.c` is `ChainMap A` (an opaque pointer is an arbitrary `A`),
`int64int64Hashmap.c` is `ChainMap Int`.

A bucket array is modelled as a total function `Nat -> chain`; the C code
only ever touches the bucket at the index computed by `hashInt64`, so this
loses nothing.  `capacity`/`size` are the C `int` fields, as `Int`. -/

/-- Two's-complement wrap of an integer into the `int64_t` range. -/
def wrap64 (x : Int) : Int := (x + 2 ^ 63) % 2 ^ 64 - 2 ^ 63

/-- Model of `hashInt64` from both hashmap files: a negative key is negated
(with `int64_t` wrap-around: negating `INT64_MIN` yields `INT64_MIN` again),
the C `%` truncates toward zero (`Int.tmod`), and the result is converted to
`unsigned int` (reduced modulo `2^32`). -/
def hashInt64 (key capacity : Int) : Int :=
  let k := if key < 0 then wrap64 (-key) else key
  (k.tmod capacity) % 2 ^ 32

/-- The bucket index actually used to subscript the bucket array. -/
def bucketIdx (key capacity : Int) : Nat := (hashInt64 key capacity).toNat

/-- A chaining hashmap with value type `A`. -/
structure ChainMap (A : Type) where
  capacity : Int
  size : Int
  buckets : Nat → List (Int × A)

/-- Initial capacity of both chaining hashmaps. -/
def initialHashmapCapacity : Int := 16

/-- Model of `createInt64Hashmap` / `createInt64Int64Hashmap` (allocation
succeeding): capacity 16, all buckets empty. -/
def createInt64Hashmap {A : Type} : ChainMap A :=
  { capacity := initialHashmapCapacity, size := 0, buckets := fun _ => [] }

/-- Replace the chain stored in bucket `i`. -/
def setBucket {A : Type} (bks : Nat → List (Int × A)) (i : Nat)
    (chain : List (Int × A)) : Nat → List (Int × A) :=
  fun j => if j = i then chain else bks j

/-- Prepend entry `e` to bucket `i` (the C rehash links each moved entry at
the head of its new bucket). -/
def bucketCons {A : Type} (bks : Nat → List (Int × A)) (i : Nat)
    (e : Int × A) : Nat → List (Int × A) :=
  fun j => if j = i then e :: bks j else bks j

/-- Rehash one chain (walked head to tail, as the C `while` does) into an
accumulating new bucket array, for new capacity `cap2`. -/
def rehashChain {A : Type} (cap2 : Int) (acc : Nat → List (Int × A))
    (chain : List (Int × A)) : Nat → List (Int × A) :=
  chain.foldl (fun a e => bucketCons a (bucketIdx e.1 cap2) e) acc

/-- Model of `resizeInt64Hashmap` / `resizeInt64Int64Hashmap` (allocation
succeeding): double the capacity and move every entry of every old bucket,
in bucket order, into a fresh bucket array. -/
def resizeChainMap {A : Type} (m : ChainMap A) : ChainMap A :=
  { capacity := m.capacity * 2, size := m.size,
    buckets := (List.range m.capacity.toNat).foldl
      (fun acc i => rehashChain (m.capacity * 2) acc (m.buckets i))
      (fun _ => []) }

/-- Does the chain contain an entry for `key`?  (The C upsert scan.) -/
def chainHasKey {A : Type} (chain : List (Int × A)) (key : Int) : Bool :=
  chain.any (fun e => e.1 = key)

/-- Overwrite, in place, the value of the first entry for `key`. -/
def chainSet {A : Type} : List (Int × A) → Int → A → List (Int × A)
  | [], _, _ => []
  | e :: t, key, v => if e.1 = key then (key, v) :: t else e :: chainSet t key v

/-- The value of the first entry for `key`, if any (the C get scan). -/
def chainLookup {A : Type} : List (Int × A) → Int → Option A
  | [], _ => none
  | e :: t, key => if e.1 = key then some e.2 else chainLookup t key

/-- Unlink the first entry for `key`. -/
def chainRemoveKey {A : Type} : List (Int × A) → Int → List (Int × A)
  | [], _ => []
  | e :: t, key => if e.1 = key then t else e :: chainRemoveKey t key

/-- The body of upsert after the load-factor check: locate the bucket, update
in place if the key exists, else (if the entry allocation succeeds) prepend a
new entry and bump `size`. -/
def upsertChainBody {A : Type} (entryOk : Bool) (m : ChainMap A) (key : Int)
    (value : A) : ChainMap A × Bool :=
  let i := bucketIdx key m.capacity
  if chainHasKey (m.buckets i) key then
    ({ m with buckets := setBucket m.buckets i (chainSet (m.buckets i) key value) },
      true)
  else if entryOk then
    let bks := setBucket m.buckets i ((key, value) :: m.buckets i)
    ({ m with buckets := bks, size := m.size + 1 }, true)
  else (m, false)

/-- The load factor check of both upserts: the C float test
`(float)(size+1)/capacity > 0.75` as the exact rational comparison
`4*(size+1) > 3*capacity` (exact since both sides are small integers). -/
def chainLoadExceeded {A : Type} (m : ChainMap A) : Bool :=
  m.capacity * 3 < (m.size + 1) * 4

/-- Model of `upsertInt64Hashmap` / `upsertInt64Int64Hashmap`, with one
success flag per allocation site (`resizeOk`: the `calloc` of the doubled
bucket array inside resize; `entryOk`: the `calloc` of a new entry). -/
def upsertChainMapA {A : Type} (resizeOk entryOk : Bool) (m : ChainMap A)
    (key : Int) (value : A) : ChainMap A × Bool :=
  if chainLoadExceeded m then
    if resizeOk then upsertChainBody entryOk (resizeChainMap m) key value
    else (m, false)
  else upsertChainBody entryOk m key value

/-- Upsert with all allocations succeeding (the resulting map). -/
def upsertChainMap {A : Type} (m : ChainMap A) (key : Int) (value : A) :
    ChainMap A :=
  (upsertChainMapA true true m key value).1

/-- Model of `getInt64Hashmap` / `getInt64Int64Hashmap`: `some v` when the
key is found with value `v`, `none` for the `false` (not found) result. -/
def getChainMap {A : Type} (m : ChainMap A) (key : Int) : Option A :=
  chainLookup (m.buckets (bucketIdx key m.capacity)) key

/-- Model of `removeInt64Hashmap` / `removeInt64Int64Hashmap`: unlink the
matching entry of the bucket chain, decrement `size`; the `Bool` is the C
return value. -/
def removeChainMap {A : Type} (m : ChainMap A) (key : Int) :
    ChainMap A × Bool :=
  let i := bucketIdx key m.capacity
  if chainHasKey (m.buckets i) key then
    let bks := setBucket m.buckets i (chainRemoveKey (m.buckets i) key)
    ({ m with buckets := bks, size := m.size - 1 }, true)
  else (m, false)

/-- A mutating hashmap operation, for describing reachable map states. -/
inductive MapOp (A : Type) where
  | upsert (key : Int) (value : A)
  | remove (key : Int)

/-- Apply one operation (allocations succeeding). -/
def applyMapOp {A : Type} (m : ChainMap A) : MapOp A → ChainMap A
  | .upsert k v => upsertChainMap m k v
  | .remove k => (removeChainMap m k).1

/-- The map state reached from `createInt64Hashmap` by a list of operations. -/
def runMapOps {A : Type} (ops : List (MapOp A)) : ChainMap A :=
  ops.foldl applyMapOp createInt64Hashmap

/-- Every entry sits in the bucket its key hashes to (at the current
capacity), and no bucket chain repeats a key.  This is the structural
invariant of the chaining hashmaps. -/
def ChainCoh {A : Type} (m : ChainMap A) : Prop :=
  ∀ i : Nat, (∀ e ∈ m.buckets i, bucketIdx e.1 m.capacity = i) ∧
    ((m.buckets i).map Prod.fst).Nodup

/-- All entries of the bucket array, in bucket order (bucket `0` first,
chains head to tail) — the order in which the C resize visits them. -/
def allEntries {A : Type} (m : ChainMap A) : List (Int × A) :=
  (List.range m.capacity.toNat).foldr (fun i acc => m.buckets i ++ acc) []

/-! ## src/int64MaxHeap.c and src/int64PriorityQueue.c

Both files implement the same array-backed binary max heap; the `static`
helpers `heapifyUp`/`heapifyDown` are identical in the two files, so they are
modelled once.  The backing array is modelled by its live prefix `data :
List Int` (`size = data.length`), reads through `List.getD` with default `0`
(all reads performed by the C code are inside the live prefix), plus the
tracked `capacity`. -/

/-- Swap the elements at positions `a` and `b` (the C `int64Swap` through
two pointers into the array). -/
def lswap (l : List Int) (a b : Nat) : List Int :=
  (l.set a (l.getD b 0)).set b (l.getD a 0)

/-- Model of the `static` `heapifyUp` of both files, as fuel-indexed
recursion: from index `i`, swap with the parent while the parent compares
smaller.  The parent index strictly decreases, so fuel `i` is always enough. -/
def heapifyUpAux (fuel : Nat) (l : List Int) (i : Nat) : List Int :=
  match fuel with
  | 0 => l
  | fuel + 1 =>
    if i = 0 then l
    else
      let p := (i - 1) / 2
      if l.getD i 0 ≤ l.getD p 0 then l
      else heapifyUpAux fuel (lswap l p i) p

/-- `heapifyUp` with its own index as (sufficient) fuel. -/
def heapifyUp (l : List Int) (i : Nat) : List Int := heapifyUpAux i l i

/-- One round of the `static` `heapifyDown` child selection: the index of
the largest among `i` and its in-range children (ties keep the parent, as in
the C strict comparisons). -/
def largestChild (l : List Int) (i : Nat) : Nat :=
  let left := 2 * i + 1
  let right := 2 * i + 2
  let largest := if left < l.length ∧ l.getD i 0 < l.getD left 0 then left else i
  if right < l.length ∧ l.getD largest 0 < l.getD right 0 then right else largest

/-- Model of the `static` `heapifyDown` of both files, as fuel-indexed
recursion: swap with the larger child while some child compares greater.
The index strictly increases, so fuel `l.length` is always enough. -/
def heapifyDownAux (fuel : Nat) (l : List Int) (i : Nat) : List Int :=
  match fuel with
  | 0 => l
  | fuel + 1 =>
    let m := largestChild l i
    if m = i then l
    else heapifyDownAux fuel (lswap l i m) m

/-- `heapifyDown` with the array length as (sufficient) fuel. -/
def heapifyDown (l : List Int) (i : Nat) : List Int :=
  heapifyDownAux l.length l i

/-- Model of `Int64MaxHeap`: live prefix plus tracked capacity. -/
structure Int64MaxHeap where
  data : List Int
  capacity : Nat

/-- Model of `int64MaxHeapCreate`: `NULL` (`none`) for capacity `0`;
otherwise (allocation succeeding) an empty heap of that capacity. -/
def int64MaxHeapCreate (capacity : Nat) : Option Int64MaxHeap :=
  if capacity = 0 then none
  else some { data := [], capacity := capacity }

/-- Model of `int64MaxHeapInsert` (allocations succeeding): double the
capacity when `size + 1 > capacity`, store the value at index `size`, bump
`size`, and sift it up. -/
def int64MaxHeapInsert (h : Int64MaxHeap) (value : Int) : Int64MaxHeap :=
  let h := if h.capacity < h.data.length + 1
    then { h with capacity := h.capacity * 2 } else h
  { h with data := heapifyUp (h.data ++ [value]) h.data.length }

/-- Model of `int64MaxHeapPeek`: `none` is the `exit(EXIT_FAILURE)` branch
taken on an empty heap; otherwise `data[0]` without mutation. -/
def int64MaxHeapPeek (h : Int64MaxHeap) : Option Int :=
  if h.data.length = 0 then none else some (h.data.getD 0 0)

/-- Model of `int64MaxHeapExtract`: `none` is the `exit(EXIT_FAILURE)` branch
taken on an empty heap; otherwise capture the root, move the last element to
the root, shrink by one and sift down. -/
def int64MaxHeapExtract (h : Int64MaxHeap) : Option (Int × Int64MaxHeap) :=
  if h.data.length = 0 then none
  else
    let root := h.data.getD 0 0
    let data := ((h.data.set 0 (h.data.getD (h.data.length - 1) 0)).dropLast)
    some (root, { h with data := heapifyDown data 0 })

/-- Model of `Int64PriorityQueue`: live prefix plus tracked capacity. -/
structure Int64PriorityQueue where
  data : List Int
  capacity : Nat

/-- Model of `int64PriorityQueueCreate`: `NULL` (`none`) for capacity `0`;
otherwise (allocation succeeding) an empty queue of that capacity. -/
def int64PriorityQueueCreate (initialCapacity : Nat) : Option Int64PriorityQueue :=
  if initialCapacity = 0 then none
  else some { data := [], capacity := initialCapacity }

/-- Model of `int64PriorityQueuePush` (allocations succeeding): double the
capacity when `size + 1 > capacity`, store the value at index `size`, sift it
up, bump `size`. -/
def int64PriorityQueuePush (pq : Int64PriorityQueue) (value : Int) :
    Int64PriorityQueue :=
  let pq := if pq.capacity < pq.data.length + 1
    then { pq with capacity := pq.capacity * 2 } else pq
  { pq with data := heapifyUp (pq.data ++ [value]) pq.data.length }

/-- Model of `int64PriorityQueuePop`: `none` is the `exit(EXIT_FAILURE)`
branch taken on an empty queue; otherwise capture the root, shrink by one
and, if elements remain, move the last element to the root and sift down. -/
def int64PriorityQueuePop (pq : Int64PriorityQueue) :
    Option (Int × Int64PriorityQueue) :=
  if pq.data.length = 0 then none
  else
    let root := pq.data.getD 0 0
    if pq.data.length - 1 = 0 then some (root, { pq with data := [] })
    else
      let data := ((pq.data.set 0 (pq.data.getD (pq.data.length - 1) 0)).dropLast)
      some (root, { pq with data := heapifyDown data 0 })

/-- Model of `int64PriorityQueuePeek`: `none` is the `exit(EXIT_FAILURE)`
branch taken on an empty queue. -/
def int64PriorityQueuePeek (pq : Int64PriorityQueue) : Option Int :=
  if pq.data.length = 0 then none else some (pq.data.getD 0 0)

/-- A heap / priority queue operation, for describing reachable states. -/
inductive HeapOp where
  | insert (value : Int)
  | extract

/-- Apply one operation to a max heap.  An `extract` on an empty heap aborts
the process in C; the state is left unchanged (no later state exists in the
aborted execution, so this is conservative for invariant claims). -/
def applyHeapOp (h : Int64MaxHeap) : HeapOp → Int64MaxHeap
  | .insert v => int64MaxHeapInsert h v
  | .extract => match int64MaxHeapExtract h with
    | some (_, h2) => h2
    | none => h

/-- Run a list of operations on a max heap created with capacity `c`. -/
def runHeapOps (c : Nat) (ops : List HeapOp) : Int64MaxHeap :=
  ops.foldl applyHeapOp { data := [], capacity := c }

/-- Apply one operation to a priority queue (as `applyHeapOp`). -/
def applyPQOp (pq : Int64PriorityQueue) : HeapOp → Int64PriorityQueue
  | .insert v => int64PriorityQueuePush pq v
  | .extract => match int64PriorityQueuePop pq with
    | some (_, pq2) => pq2
    | none => pq

/-- Run a list of operations on a priority queue created with capacity `c`. -/
def runPQOps (c : Nat) (ops : List HeapOp) : Int64PriorityQueue :=
  ops.foldl applyPQOp { data := [], capacity := c }

/-- The max-heap shape invariant on the live prefix: every in-range child is
at most its parent. -/
def IsMaxHeapList (l : List Int) : Prop :=
  ∀ i j : Nat, j < l.length → (j = 2 * i + 1 ∨ j = 2 * i + 2) →
    l.getD j 0 ≤ l.getD i 0

/-- Extract `n` times from a max heap, collecting the returned maxima (an
extraction hitting the empty heap aborts the process; no further values). -/
def extractAllHeap : Nat → Int64MaxHeap → List Int
  | 0, _ => []
  | n + 1, h =>
    match int64MaxHeapExtract h with
    | none => []
    | some (r, h2) => r :: extractAllHeap n h2

/-- Insert every element of `l` in order into a max heap of capacity `c`. -/
def heapOfList (c : Nat) (l : List Int) : Int64MaxHeap :=
  l.foldl int64MaxHeapInsert { data := [], capacity := c }

/-! ## src/int64Set.c

Open addressing with linear probing and tombstones.  The slot array is a
total function `Nat -> HashSlot`; every C access happens at an index
`(home + i) % capacity`, which the model reproduces literally.  `calloc`
zero-initialisation makes fresh slots `{ key := 0, state := EMPTY }`. -/

/-- The slot states of `int64Set.c`. -/
inductive SlotState where
  | EMPTY
  | OCCUPIED
  | DELETED
  deriving Repr, DecidableEq

/-- One slot of the probing table. -/
structure HashSlot where
  key : Int
  state : SlotState
  deriving Repr, DecidableEq

/-- Model of the `static` `int64Hash`: splitmix64-style avalanche over the
key reinterpreted as `uint64_t`. -/
def int64Hash (key : Int) : Nat :=
  let x0 := (key % 2 ^ 64).toNat
  let x1 := ((x0 >>> 30) ^^^ x0) * 0xbf58476d1ce4e5b9 % 2 ^ 64
  let x2 := ((x1 >>> 27) ^^^ x1) * 0x94d049bb133111eb % 2 ^ 64
  (x2 >>> 31) ^^^ x2

/-- Model of `Int64Set`.  `loadFactor` is kept as the exact rational the
caller supplied (the C `float`). -/
structure Int64Set where
  slots : Nat → HashSlot
  size : Nat
  capacity : Nat
  loadFactor : ℚ

/-- A freshly created set (all slots zeroed to `EMPTY`). -/
def int64SetNew (capacity : Nat) (loadFactor : ℚ) : Int64Set :=
  { slots := fun _ => { key := 0, state := .EMPTY }, size := 0,
    capacity := capacity, loadFactor := loadFactor }

/-- Model of `int64SetCreate`: the only validation performed is of the load
factor (`NULL` unless `0 < loadFactor < 1`); the capacity is *not* checked,
and (as on glibc, where `calloc(0, n)` returns a non-null pointer) a zero
capacity still yields a set. -/
def int64SetCreate (capacity : Nat) (loadFactor : ℚ) : Option Int64Set :=
  if loadFactor ≤ 0 ∨ 1 ≤ loadFactor then none
  else some (int64SetNew capacity loadFactor)

/-- Write one slot of the table. -/
def setSlot (slots : Nat → HashSlot) (p : Nat) (s : HashSlot) :
    Nat → HashSlot :=
  fun j => if j = p then s else slots j

/-- The probe loop of the resize rehash: the first probe position, from home
index `index`, whose slot is not `OCCUPIED` (`rem` counts the remaining
iterations of the C `for`, `i` the current offset). -/
def placeProbeAux (slots : Nat → HashSlot) (cap : Nat) (index : Nat) :
    Nat → Nat → Option Nat
  | 0, _ => none
  | rem + 1, i =>
    let probe := (index + i) % cap
    if (slots probe).state ≠ .OCCUPIED then some probe
    else placeProbeAux slots cap index rem (i + 1)

/-- Rehash a single key into the (partly filled) new table: probe from its
home index and occupy the first non-`OCCUPIED` slot; if the scan exhausts the
table (it cannot, in reachable states) the key is silently dropped, exactly
as in the C `for` loop. -/
def rehashKey (cap : Nat) (slots : Nat → HashSlot) (key : Int) :
    Nat → HashSlot :=
  match placeProbeAux slots cap (int64Hash key % cap) cap 0 with
  | some p => setSlot slots p { key := key, state := .OCCUPIED }
  | none => slots

/-- Model of `int64SetResize` (allocation succeeding): fresh `EMPTY` slots of
the new capacity, every `OCCUPIED` key of the old table re-probed into them
in slot order; `size` and `loadFactor` unchanged, tombstones dropped. -/
def int64SetResize (s : Int64Set) (newCapacity : Nat) : Int64Set :=
  let slots := (List.range s.capacity).foldl
    (fun acc i => if (s.slots i).state = .OCCUPIED
      then rehashKey newCapacity acc (s.slots i).key else acc)
    (fun _ => { key := 0, state := .EMPTY })
  { s with slots := slots, capacity := newCapacity }

/-- Result of the insert probe loop: a slot to occupy, the key found already
present, or the loop exhausting the table. -/
inductive InsProbe where
  | occupy (p : Nat)
  | present
  | exhausted
  deriving Repr, DecidableEq

/-- The probe loop of `int64SetInsert`: stop at the first non-`OCCUPIED`
slot (insert there), or at an `OCCUPIED` slot holding the key (report it
present). -/
def insProbeAux (slots : Nat → HashSlot) (cap : Nat) (key : Int)
    (index : Nat) : Nat → Nat → InsProbe
  | 0, _ => .exhausted
  | rem + 1, i =>
    let probe := (index + i) % cap
    if (slots probe).state ≠ .OCCUPIED then .occupy probe
    else if (slots probe).key = key then .present
    else insProbeAux slots cap key index rem (i + 1)

/-- The load factor check of `int64SetInsert`: the C `double` test
`(double)(size+1)/capacity > loadFactor`, as the exact cross-multiplied
comparison `(size+1)*loadFactor.den > loadFactor.num*capacity`.  (For
`capacity > 0` this is exactly the rational comparison; for `capacity = 0`
the C division yields `+inf`, which also compares greater, matching this
formula.) -/
def setLoadExceeded (s : Int64Set) : Bool :=
  s.loadFactor.num * (s.capacity : Int) < ((s.size : Int) + 1) * (s.loadFactor.den : Int)

/-- Model of `int64SetInsert` with a success flag for the allocation inside
the (load-factor triggered) resize.  Returns the new state and the C `bool`
(which is `false` both for a key already present and for failure). -/
def int64SetInsertA (resizeOk : Bool) (s : Int64Set) (key : Int) :
    Int64Set × Bool :=
  if setLoadExceeded s ∧ ¬resizeOk then
    (s, false)
  else
    let s := if setLoadExceeded s
      then int64SetResize s (s.capacity * 2) else s
    match insProbeAux s.slots s.capacity key (int64Hash key % s.capacity)
        s.capacity 0 with
    | .occupy p =>
      let slots := setSlot s.slots p { key := key, state := .OCCUPIED }
      ({ s with slots := slots, size := s.size + 1 }, true)
    | .present => (s, false)
    | .exhausted => (s, false)

/-- `int64SetInsert` with the resize allocation succeeding. -/
def int64SetInsert (s : Int64Set) (key : Int) : Int64Set × Bool :=
  int64SetInsertA true s key

/-- The probe loop of `int64SetRemove`: stop at `EMPTY` (absent) or at an
`OCCUPIED` slot holding the key (that slot gets the tombstone). -/
def remProbeAux (slots : Nat → HashSlot) (cap : Nat) (key : Int)
    (index : Nat) : Nat → Nat → Option Nat
  | 0, _ => none
  | rem + 1, i =>
    let probe := (index + i) % cap
    if (slots probe).state = .EMPTY then none
    else if (slots probe).state = .OCCUPIED ∧ (slots probe).key = key then
      some probe
    else remProbeAux slots cap key index rem (i + 1)

/-- Model of `int64SetRemove`: mark the found slot `DELETED` and decrement
`size`; the `Bool` is the C return value. -/
def int64SetRemove (s : Int64Set) (key : Int) : Int64Set × Bool :=
  match remProbeAux s.slots s.capacity key (int64Hash key % s.capacity)
      s.capacity 0 with
  | some p =>
    let slots := setSlot s.slots p { key := (s.slots p).key, state := .DELETED }
    ({ s with slots := slots, size := s.size - 1 }, true)
  | none => (s, false)

/-- The probe loop of `int64SetContains`: `false` at `EMPTY`, `true` at an
`OCCUPIED` slot holding the key. -/
def containsAux (slots : Nat → HashSlot) (cap : Nat) (key : Int)
    (index : Nat) : Nat → Nat → Bool
  | 0, _ => false
  | rem + 1, i =>
    let probe := (index + i) % cap
    if (slots probe).state = .EMPTY then false
    else if (slots probe).state = .OCCUPIED ∧ (slots probe).key = key then
      true
    else containsAux slots cap key index rem (i + 1)

/-- Model of `int64SetContains`. -/
def int64SetContains (s : Int64Set) (key : Int) : Bool :=
  containsAux s.slots s.capacity key (int64Hash key % s.capacity)
    s.capacity 0

/-- A set operation, for describing reachable set states. -/
inductive SetOp where
  | insert (key : Int)
  | remove (key : Int)

/-- Apply one operation (allocations succeeding). -/
def applySetOp (s : Int64Set) : SetOp → Int64Set
  | .insert k => (int64SetInsert s k).1
  | .remove k => (int64SetRemove s k).1

/-- The set state reached from a fresh set by a list of operations. -/
def runSetOps (capacity : Nat) (loadFactor : ℚ) (ops : List SetOp) : Int64Set :=
  ops.foldl applySetOp (int64SetNew capacity loadFactor)

/-- Insert each key of `l`, in order, into set `s`. -/
def int64SetInsertAll (s : Int64Set) (l : List Int) : Int64Set :=
  l.foldl (fun s k => (int64SetInsert s k).1) s

/-- Number of `OCCUPIED` slots of the table. -/
def occCount (s : Int64Set) : Nat :=
  (List.range s.capacity).countP (fun p => (s.slots p).state = .OCCUPIED)

/-- Number of `OCCUPIED` slots holding `key`. -/
def occKeyCount (s : Int64Set) (key : Int) : Nat :=
  (List.range s.capacity).countP
    (fun p => (s.slots p).state = .OCCUPIED ∧ (s.slots p).key = key)

/-- `key` is reachable in the table: some probe chain from its home index
reaches an `OCCUPIED` slot holding it crossing only non-`EMPTY` slots.
`int64SetContains` answers `true` exactly by such a chain. -/
def KeyChain (s : Int64Set) (key : Int) : Prop :=
  ∃ j < s.capacity,
    (s.slots ((int64Hash key % s.capacity + j) % s.capacity)).state = .OCCUPIED ∧
    (s.slots ((int64Hash key % s.capacity + j) % s.capacity)).key = key ∧
    ∀ j2 < j, (s.slots ((int64Hash key % s.capacity + j2) % s.capacity)).state ≠ .EMPTY

/-! ## Invariant predicates used by the proofs -/

/-- Heap-repair invariant for `heapifyUp`: every parent-child pair not ending
at `i` is ordered, and the children of `i` are already bounded by the parent
of `i` (so moving `l[i]` up cannot break the order below it). -/
def NearUp (l : List Int) (i : Nat) : Prop :=
  (∀ a b : Nat, (b = 2 * a + 1 ∨ b = 2 * a + 2) → b < l.length → b ≠ i →
    l.getD b 0 ≤ l.getD a 0) ∧
  (∀ b : Nat, (b = 2 * i + 1 ∨ b = 2 * i + 2) → b < l.length → 0 < i →
    l.getD b 0 ≤ l.getD ((i - 1) / 2) 0)

/-- Heap-repair invariant for `heapifyDown`: every parent-child pair not
starting at `i` is ordered, and the children of `i` are bounded by the parent
of `i` (so moving `l[i]` down cannot break the order above it). -/
def NearDown (l : List Int) (i : Nat) : Prop :=
  (∀ a b : Nat, (b = 2 * a + 1 ∨ b = 2 * a + 2) → b < l.length → a ≠ i →
    l.getD b 0 ≤ l.getD a 0) ∧
  (∀ b : Nat, (b = 2 * i + 1 ∨ b = 2 * i + 2) → b < l.length → 0 < i →
    l.getD b 0 ≤ l.getD ((i - 1) / 2) 0)

/-- Structural well-formedness of a reachable `Int64Set`: positive capacity,
`size` counts the `OCCUPIED` slots, the table is never full, and the load
factor lies in `(0,1)` (in exact `num`/`den` form). -/
def SetWF (s : Int64Set) : Prop :=
  1 ≤ s.capacity ∧ s.size = occCount s ∧ s.size ≤ s.capacity ∧
  0 < s.loadFactor.num ∧ s.loadFactor.num < (s.loadFactor.den : Int)

/-- The key inventory of a set state: every `OCCUPIED` slot holds a key of
`ks`, every key of `ks` is reachable by its probe chain, and no key occupies
two slots. -/
def SetKeys (s : Int64Set) (ks : List Int) : Prop :=
  (∀ p, p < s.capacity → (s.slots p).state = .OCCUPIED → (s.slots p).key ∈ ks) ∧
  (∀ k, k ∈ ks → KeyChain s k) ∧
  (∀ k : Int, occKeyCount s k ≤ 1)

/-- `k` lies in the `int64_t` range. -/
def Int64Range (k : Int) : Prop := -(2 ^ 63) ≤ k ∧ k < 2 ^ 63

/-- No `OCCUPIED` slot of the table holds `key`. -/
def NoOccKey (s : Int64Set) (key : Int) : Prop := occKeyCount s key = 0

/-- `OCCUPIED`-slot count of a raw table of capacity `cap`. -/
def occF (slots : Nat → HashSlot) (cap : Nat) : Nat :=
  (List.range cap).countP (fun p => (slots p).state = .OCCUPIED)

/-- Count of `OCCUPIED` slots of a raw table holding `key`. -/
def occKeyF (slots : Nat → HashSlot) (cap : Nat) (key : Int) : Nat :=
  (List.range cap).countP
    (fun p => (slots p).state = .OCCUPIED ∧ (slots p).key = key)

/-- Strong probe chain in a raw table: an `OCCUPIED` slot holding `key`
whose whole probe prefix is `OCCUPIED` — what the insert probe loop needs
in order to report the key present. -/
def InsChainF (slots : Nat → HashSlot) (cap : Nat) (key : Int) : Prop :=
  ∃ j < cap,
    (slots ((int64Hash key % cap + j) % cap)).state = .OCCUPIED ∧
    (slots ((int64Hash key % cap + j) % cap)).key = key ∧
    ∀ j2 < j, (slots ((int64Hash key % cap + j2) % cap)).state = .OCCUPIED

/-- Weak probe chain in a raw table (`KeyChain` over raw data): the probe
prefix need only be non-`EMPTY` — what `contains` and `remove` need. -/
def KeyChainF (slots : Nat → HashSlot) (cap : Nat) (key : Int) : Prop :=
  ∃ j < cap,
    (slots ((int64Hash key % cap + j) % cap)).state = .OCCUPIED ∧
    (slots ((int64Hash key % cap + j) % cap)).key = key ∧
    ∀ j2 < j, (slots ((int64Hash key % cap + j2) % cap)).state ≠ .EMPTY

/-- Strong probe chain of a set state. -/
def InsChain (s : Int64Set) (key : Int) : Prop :=
  InsChainF s.slots s.capacity key

/-- No `DELETED` slot in a raw table. -/
def NoTombF (slots : Nat → HashSlot) (cap : Nat) : Prop :=
  ∀ p < cap, (slots p).state ≠ .DELETED

/-- No tombstone in a set state (holds for tables reached by inserts only). -/
def NoTomb (s : Int64Set) : Prop := NoTombF s.slots s.capacity

/-- The resize-if-needed first step of `int64SetInsert` (allocation
succeeding), named for use in the proofs; the insert body continues on this
state. -/
def setInsertMid (s : Int64Set) : Int64Set :=
  if setLoadExceeded s then int64SetResize s (s.capacity * 2) else s

/-- The rehash loop of `int64SetResize`, over an explicit slot-index list
(the body of the fold in `int64SetResize`, named for the proofs). -/
def rehashFold (newCap : Nat) (f : Nat → HashSlot) (l : List Nat)
    (acc : Nat → HashSlot) : Nat → HashSlot :=
  l.foldl
    (fun acc i => if (f i).state = .OCCUPIED
      then rehashKey newCap acc (f i).key else acc) acc

/-!
# Theorems

First the supporting lemmas, then, per claim `Cn` of the specification, one
theorem (plus witness / counterexample where applicable).
-/

/-! ### Doubling growth (toward C6) -/

theorem capAfter_facts (c : Nat) (hc : 1 ≤ c) (n : Nat) :
    n ≤ capAfter c n ∧ (∃ j, capAfter c n = c * 2 ^ j) ∧
      (capAfter c n = c ∨ capAfter c n < 2 * n) := by
  induction n with
  | zero => exact ⟨Nat.zero_le _, ⟨0, by simp [capAfter]⟩, Or.inl rfl⟩
  | succ n ih =>
    obtain ⟨hle, ⟨j, hj⟩, hmin⟩ := ih
    by_cases h : n = capAfter c n
    · have hn1 : 1 ≤ n := by
        have : c ≤ capAfter c n := by
          rw [hj]; exact Nat.le_mul_of_pos_right c (Nat.pos_pow_of_pos j (by omega))
        omega
      have hstep : capAfter c (n + 1) = 2 * capAfter c n := by
        simp only [capAfter]; rw [if_pos h]
      refine ⟨?_, ⟨j + 1, ?_⟩, Or.inr ?_⟩
      · rw [hstep]; omega
      · rw [hstep, hj]; ring
      · rw [hstep]; omega
    · have hstep : capAfter c (n + 1) = capAfter c n := by
        simp only [capAfter]; rw [if_neg h]
      refine ⟨?_, ⟨j, ?_⟩, ?_⟩
      · rw [hstep]; omega
      · rw [hstep, hj]
      · rw [hstep]; omega

theorem capAfter_least (c n : Nat) (hc : 1 ≤ c) :
    IsLeastPow2Mult c n (capAfter c n) := by
  obtain ⟨hle, ⟨j, hj⟩, hmin⟩ := capAfter_facts c hc n
  refine ⟨⟨j, hj⟩, hle, ?_⟩
  rintro mm ⟨j2, rfl⟩ hnm
  rcases hmin with h | h
  · rw [h]; exact Nat.le_mul_of_pos_right c (Nat.pos_pow_of_pos j2 (by omega))
  · have h2 : c * 2 ^ j < c * (2 ^ j2 * 2) := by
      calc c * 2 ^ j = capAfter c n := hj.symm
      _ < 2 * n := h
      _ ≤ 2 * (c * 2 ^ j2) := by omega
      _ = c * (2 ^ j2 * 2) := by ring
    have h3 : 2 ^ j < 2 ^ j2 * 2 := Nat.lt_of_mul_lt_mul_left h2
    have h4 : j < j2 + 1 := by
      by_contra hcon
      have : 2 ^ (j2 + 1) ≤ 2 ^ j := Nat.pow_le_pow_right (by omega) (by omega)
      have : 2 ^ j2 * 2 ≤ 2 ^ j := by
        calc 2 ^ j2 * 2 = 2 ^ (j2 + 1) := by ring
        _ ≤ 2 ^ j := this
      omega
    rw [hj]
    exact Nat.mul_le_mul_left c (Nat.pow_le_pow_right (by omega) (by omega))

theorem appendRun_capacity (c : Nat) (l : List Int) :
    ∀ (n : Nat) (a : IntegerDynamicArray), a.data.length = n →
      a.capacity = capAfter c n →
      (l.foldl appendIntegerDynamicArray a).data.length = n + l.length ∧
      (l.foldl appendIntegerDynamicArray a).capacity = capAfter c (n + l.length) := by
  induction l with
  | nil => intro n a h1 h2; simpa using ⟨h1, h2⟩
  | cons x t ih =>
    intro n a h1 h2
    have step : (appendIntegerDynamicArray a x).data.length = n + 1 ∧
        (appendIntegerDynamicArray a x).capacity = capAfter c (n + 1) := by
      unfold appendIntegerDynamicArray
      by_cases h : a.data.length = a.capacity
      · rw [if_pos h]
        refine ⟨by simp [h1], ?_⟩
        have hstep : capAfter c (n + 1) = 2 * capAfter c n := by
          simp only [capAfter]; rw [if_pos (by omega)]
        simp only [hstep]
        simp [h2]; omega
      · rw [if_neg h]
        refine ⟨by simp [h1], ?_⟩
        have hstep : capAfter c (n + 1) = capAfter c n := by
          simp only [capAfter]; rw [if_neg (by omega)]
        simp only [hstep]
        simpa using h2
    have := ih (n + 1) (appendIntegerDynamicArray a x) step.1 step.2
    simp only [List.foldl_cons, List.length_cons]
    refine ⟨?_, ?_⟩
    · rw [this.1]; omega
    · rw [this.2]; congr 1; omega

theorem pushRun_capacity (c : Nat) (l : List Int) :
    ∀ (n : Nat) (a : IntegerStack), a.data.length = n →
      a.size = capAfter c n →
      (l.foldl pushIntegerStack a).data.length = n + l.length ∧
      (l.foldl pushIntegerStack a).size = capAfter c (n + l.length) := by
  induction l with
  | nil => intro n a h1 h2; simpa using ⟨h1, h2⟩
  | cons x t ih =>
    intro n a h1 h2
    have step : (pushIntegerStack a x).data.length = n + 1 ∧
        (pushIntegerStack a x).size = capAfter c (n + 1) := by
      unfold pushIntegerStack
      by_cases h : a.data.length = a.size
      · rw [if_pos h]
        refine ⟨by simp [h1], ?_⟩
        have hstep : capAfter c (n + 1) = 2 * capAfter c n := by
          simp only [capAfter]; rw [if_pos (by omega)]
        simp only [hstep]
        simp [h2]; omega
      · rw [if_neg h]
        refine ⟨by simp [h1], ?_⟩
        have hstep : capAfter c (n + 1) = capAfter c n := by
          simp only [capAfter]; rw [if_neg (by omega)]
        simp only [hstep]
        simpa using h2
    have := ih (n + 1) (pushIntegerStack a x) step.1 step.2
    simp only [List.foldl_cons, List.length_cons]
    exact ⟨by rw [this.1]; omega, by rw [this.2]; congr 1; omega⟩

theorem lswap_length (l : List Int) (a b : Nat) :
    (lswap l a b).length = l.length := by
  simp [lswap]

theorem heapifyUpAux_length (fuel : Nat) :
    ∀ (l : List Int) (i : Nat), (heapifyUpAux fuel l i).length = l.length := by
  induction fuel with
  | zero => intro l i; rfl
  | succ fuel ih =>
    intro l i
    simp only [heapifyUpAux]
    by_cases h : i = 0
    · rw [if_pos h]
    · rw [if_neg h]
      by_cases h2 : l.getD i 0 ≤ l.getD ((i - 1) / 2) 0
      · rw [if_pos h2]
      · rw [if_neg h2, ih, lswap_length]

theorem heapifyUp_length (l : List Int) (i : Nat) :
    (heapifyUp l i).length = l.length := heapifyUpAux_length i l i

theorem int64MaxHeapInsert_length (h : Int64MaxHeap) (v : Int) :
    (int64MaxHeapInsert h v).data.length = h.data.length + 1 := by
  unfold int64MaxHeapInsert
  by_cases hc : h.capacity < h.data.length + 1
  · rw [if_pos hc]; simp [heapifyUp_length]
  · rw [if_neg hc]; simp [heapifyUp_length]

theorem heapRun_capacity (c : Nat) (hc : 1 ≤ c) (l : List Int) :
    ∀ (n : Nat) (a : Int64MaxHeap), a.data.length = n →
      a.capacity = capAfter c n →
      (l.foldl int64MaxHeapInsert a).data.length = n + l.length ∧
      (l.foldl int64MaxHeapInsert a).capacity = capAfter c (n + l.length) := by
  induction l with
  | nil => intro n a h1 h2; simpa using ⟨h1, h2⟩
  | cons x t ih =>
    intro n a h1 h2
    have hle : n ≤ capAfter c n := (capAfter_facts c hc n).1
    have step : (int64MaxHeapInsert a x).data.length = n + 1 ∧
        (int64MaxHeapInsert a x).capacity = capAfter c (n + 1) := by
      unfold int64MaxHeapInsert
      by_cases h : a.capacity < a.data.length + 1
      · rw [if_pos h]
        refine ⟨by simp [heapifyUp_length, h1], ?_⟩
        have hstep : capAfter c (n + 1) = 2 * capAfter c n := by
          simp only [capAfter]; rw [if_pos (by omega)]
        simp only [hstep]
        simp [h2]; omega
      · rw [if_neg h]
        refine ⟨by simp [heapifyUp_length, h1], ?_⟩
        have hstep : capAfter c (n + 1) = capAfter c n := by
          simp only [capAfter]; rw [if_neg (by omega)]
        simp only [hstep]
        simpa using h2
    have := ih (n + 1) (int64MaxHeapInsert a x) step.1 step.2
    simp only [List.foldl_cons, List.length_cons]
    exact ⟨by rw [this.1]; omega, by rw [this.2]; congr 1; omega⟩

/-- C6.  Doubling growth postcondition: for a Growable Sequence (dynamic int
array, integer stack, or max heap) created with initial capacity `c > 0`,
after `n` successful appends/pushes/inserts the capacity equals the smallest
power-of-two multiple of `c` that is at least `n` (so it stays `c` whenever
`n ≤ c`). -/
theorem growth_doubling_postcondition (c : Nat) (hc : 1 ≤ c) (l : List Int) :
    IsLeastPow2Mult c l.length
      ((l.foldl appendIntegerDynamicArray (newIntegerDynamicArray c)).capacity) ∧
    IsLeastPow2Mult c l.length
      ((l.foldl pushIntegerStack (newIntegerStack c)).size) ∧
    IsLeastPow2Mult c l.length ((heapOfList c l).capacity) := by
  refine ⟨?_, ?_, ?_⟩
  · have := (appendRun_capacity c l 0 (newIntegerDynamicArray c) rfl rfl).2
    rw [this]; simpa using capAfter_least c l.length hc
  · have := (pushRun_capacity c l 0 (newIntegerStack c) rfl rfl).2
    rw [this]; simpa using capAfter_least c l.length hc
  · have := (heapRun_capacity c hc l 0 { data := [], capacity := c } rfl rfl).2
    unfold heapOfList
    rw [this]; simpa using capAfter_least c l.length hc

theorem growth_doubling_postcondition_witness :
    1 ≤ 4 ∧
    (IsLeastPow2Mult 4 10
        (([1,2,3,4,5,6,7,8,9,10].foldl appendIntegerDynamicArray
          (newIntegerDynamicArray 4)).capacity) ∧
      IsLeastPow2Mult 4 10
        (([1,2,3,4,5,6,7,8,9,10].foldl pushIntegerStack (newIntegerStack 4)).size) ∧
      IsLeastPow2Mult 4 10 ((heapOfList 4 [1,2,3,4,5,6,7,8,9,10]).capacity)) :=
  ⟨by decide, growth_doubling_postcondition 4 (by decide) [1,2,3,4,5,6,7,8,9,10]⟩

/-! ### stringDynamicArray matching semantics (toward C10) -/

theorem strncmpEq_comm (x y : List Char) (n : Nat) :
    strncmpEq x y n = strncmpEq y x n := by
  induction x generalizing y n with
  | nil => cases y <;> cases n <;> simp [strncmpEq]
  | cons a as ih =>
    cases y with
    | nil => cases n <;> simp [strncmpEq]
    | cons b bs =>
      cases n with
      | zero => simp [strncmpEq]
      | succ n =>
        simp only [strncmpEq, ih]
        congr 1
        exact decide_eq_decide.mpr eq_comm

theorem strncmpEq_length_iff (q s : List Char) :
    strncmpEq q s q.length = true ↔ q <+: s := by
  induction q generalizing s with
  | nil => simp [strncmpEq, List.nil_prefix]
  | cons a as ih =>
    cases s with
    | nil => simp [strncmpEq]
    | cons b bs =>
      simp only [List.length_cons, strncmpEq, Bool.and_eq_true, decide_eq_true_eq,
        ih, List.cons_prefix_cons]

/-- C10.  The string dynamic array matches by leading segment, not by full
string equality: `find(q)`/`delete(q)` treat a stored string `s` as a match
exactly when the first `strlen(q)` characters of `s` equal `q`, i.e. when `q`
is a prefix of `s`.  Hence whenever some stored `s` has `q` as a prefix,
`find(q)` returns the index of the first such stored string and `delete(q)`
unlinks that same string, even when `s` is strictly longer than `q`. -/
theorem stringDynArray_matches_by_IsPrefix (elems : List (List Char))
    (q s : List Char) (hs : s ∈ elems) (hq : q <+: s) :
    ∃ i, findStringDynamicArray elems q = some i ∧ i < elems.length ∧
      q <+: elems.getD i [] ∧ (∀ j, j < i → ¬ q <+: elems.getD j []) ∧
      deleteStringDynamicArray elems q = some (elems.eraseIdx i) := by
  induction elems with
  | nil => cases hs
  | cons e rest ih =>
    by_cases h : q <+: e
    · refine ⟨0, ?_, by simp, by simpa using h, by omega, ?_⟩
      · simp [findStringDynamicArray, (strncmpEq_length_iff q e).mpr h]
      · have h2 : strncmpEq e q q.length = true := by
          rw [strncmpEq_comm]; exact (strncmpEq_length_iff q e).mpr h
        simp [deleteStringDynamicArray, h2]
    · have hs2 : s ∈ rest := by
        rcases List.mem_cons.mp hs with h1 | h1
        · exact absurd (h1 ▸ hq) h
        · exact h1
      obtain ⟨i, hfind, hlt, hpre, hfirst, hdel⟩ := ih hs2
      have hne : strncmpEq q e q.length = false := by
        rw [← Bool.not_eq_true]
        intro hcon
        exact h ((strncmpEq_length_iff q e).mp hcon)
      have hne2 : strncmpEq e q q.length = false := by rw [strncmpEq_comm]; exact hne
      refine ⟨i + 1, ?_, by simpa using hlt, by simpa using hpre, ?_, ?_⟩
      · simp [findStringDynamicArray, hne, hfind]
      · intro j hj
        cases j with
        | zero => simpa using h
        | succ j2 => simpa using hfirst j2 (by omega)
      · simp [deleteStringDynamicArray, hne2, hdel, List.eraseIdx]

theorem stringDynArray_matches_by_IsPrefix_witness :
    (['a','p','p','l','e'] ∈ [['b','u','n'], ['a','p','p','l','e']] ∧
      ['a','p'] <+: ['a','p','p','l','e']) ∧
    ∃ i, findStringDynamicArray [['b','u','n'], ['a','p','p','l','e']] ['a','p'] = some i ∧
      i < 2 ∧ ['a','p'] <+: [['b','u','n'], ['a','p','p','l','e']].getD i [] ∧
      (∀ j, j < i → ¬ ['a','p'] <+: [['b','u','n'], ['a','p','p','l','e']].getD j []) ∧
      deleteStringDynamicArray [['b','u','n'], ['a','p','p','l','e']] ['a','p'] =
        some ([['b','u','n'], ['a','p','p','l','e']].eraseIdx i) :=
  ⟨⟨by decide, ⟨['p','l','e'], rfl⟩⟩,
    stringDynArray_matches_by_IsPrefix [['b','u','n'], ['a','p','p','l','e']]
      ['a','p'] ['a','p','p','l','e'] (by decide) ⟨['p','l','e'], rfl⟩⟩

/-! ### Empty-heap behaviour (C8) -/

/-- C8.  On an empty heap or priority queue (`size == 0`), `peek` and
`extract`/`pop` never hand an error result back to the caller: they take the
process-aborting `exit(EXIT_FAILURE)` branch (modelled by `none`); on a
non-empty heap or queue that branch is never taken (the result is `some`). -/
theorem empty_heap_aborts (h : Int64MaxHeap) (pq : Int64PriorityQueue) :
    (int64MaxHeapExtract h = none ↔ h.data.length = 0) ∧
    (int64MaxHeapPeek h = none ↔ h.data.length = 0) ∧
    (int64PriorityQueuePop pq = none ↔ pq.data.length = 0) ∧
    (int64PriorityQueuePeek pq = none ↔ pq.data.length = 0) := by
  refine ⟨?_, ?_, ?_, ?_⟩
  · unfold int64MaxHeapExtract
    by_cases hl : h.data.length = 0 <;> simp [hl]
  · unfold int64MaxHeapPeek
    by_cases hl : h.data.length = 0 <;> simp [hl]
  · unfold int64PriorityQueuePop
    by_cases hl : pq.data.length = 0
    · simp [hl]
    · rw [if_neg hl]
      by_cases h1 : pq.data.length - 1 = 0 <;> simp [h1, hl]
  · unfold int64PriorityQueuePeek
    by_cases hl : pq.data.length = 0 <;> simp [hl]

/-! ### Construction validation (C9) -/

/-- C9 counterexample.  The claim says every zero-capacity `create` fails and
returns no container; but `int64SetCreate` never validates the capacity: with
a valid load factor it returns a set even for capacity `0` (its `calloc(0,
sizeof(HashSlot))` succeeds, as on glibc). -/
theorem create_validation_counterexample :
    (int64SetCreate 0 (mkRat 3 4)).isSome = true := by decide

/-- C9 amended.  `int64MaxHeapCreate` and `int64PriorityQueueCreate` reject
capacity `0` (returning `NULL`), and `int64SetCreate` rejects every load
factor outside the open interval `(0,1)` (returning `NULL`); but
`int64SetCreate` does not validate its capacity: with a load factor inside
`(0,1)` it succeeds even at capacity `0`. -/
theorem create_validation_amended :
    (int64MaxHeapCreate 0 = none) ∧
    (int64PriorityQueueCreate 0 = none) ∧
    (∀ (cap : Nat) (lf : ℚ), lf ≤ 0 ∨ 1 ≤ lf → int64SetCreate cap lf = none) ∧
    (∀ lf : ℚ, 0 < lf → lf < 1 → ∀ cap : Nat, (int64SetCreate cap lf).isSome = true) := by
  refine ⟨rfl, rfl, ?_, ?_⟩
  · intro cap lf hlf
    unfold int64SetCreate
    rw [if_pos hlf]
  · intro lf h0 h1 cap
    unfold int64SetCreate
    rw [if_neg (by push_neg; exact ⟨h0, h1⟩)]
    rfl

theorem create_validation_amended_witness :
    int64MaxHeapCreate 0 = none ∧ int64PriorityQueueCreate 0 = none ∧
    int64SetCreate 5 2 = none ∧ (int64SetCreate 0 (mkRat 3 4)).isSome = true :=
  ⟨create_validation_amended.1, create_validation_amended.2.1,
    create_validation_amended.2.2.1 5 2 (Or.inr (by decide)),
    create_validation_amended.2.2.2 (mkRat 3 4) (by decide) (by decide) 0⟩

/-! ### List indexing and swap lemmas (toward C4 and C5) -/

theorem getD_set (a : Int) : ∀ (l : List Int) (i j : Nat),
    (l.set i a).getD j 0 = if j = i ∧ i < l.length then a else l.getD j 0 := by
  intro l
  induction l with
  | nil => intro i j; simp
  | cons x t ih =>
    intro i j
    cases i with
    | zero =>
      cases j with
      | zero => simp
      | succ j2 => simp
    | succ i2 =>
      cases j with
      | zero => simp
      | succ j2 =>
        simp only [List.set, List.getD_cons_succ, ih, List.length_cons]
        by_cases h : j2 = i2 ∧ i2 < t.length
        · rw [if_pos h, if_pos ⟨by omega, by omega⟩]
        · rw [if_neg h, if_neg (by omega)]

theorem lswap_getD (l : List Int) (p i x : Nat) (hp : p < l.length)
    (hi : i < l.length) :
    (lswap l p i).getD x 0 =
      if x = i then l.getD p 0 else if x = p then l.getD i 0
      else l.getD x 0 := by
  unfold lswap
  rw [getD_set, getD_set]
  simp only [List.length_set]
  by_cases h1 : x = i
  · rw [if_pos ⟨h1, hi⟩, if_pos h1]
  · rw [if_neg (fun hh => h1 hh.1), if_neg h1]
    by_cases h2 : x = p
    · rw [if_pos ⟨h2, hp⟩, if_pos h2]
    · rw [if_neg (fun hh => h2 hh.1), if_neg h2]

theorem count_set (c v : Int) : ∀ (l : List Int) (i : Nat), i < l.length →
    (l.set i v).count c + (if l.getD i 0 = c then 1 else 0) =
      l.count c + (if v = c then 1 else 0) := by
  intro l
  induction l with
  | nil => intro i h; simp at h
  | cons x t ih =>
    intro i h
    cases i with
    | zero =>
      simp only [List.set, List.getD_cons_zero, List.count_cons]
      by_cases h1 : x = c
      · by_cases h2 : v = c
        · simp [h1, h2]
        · have h2b : ¬ c = v := fun hh => h2 hh.symm
          simp [h1, h2, h2b]
      · have h1b : ¬ c = x := fun hh => h1 hh.symm
        by_cases h2 : v = c
        · simp [h1, h1b, h2]
        · have h2b : ¬ c = v := fun hh => h2 hh.symm
          simp [h1, h1b, h2, h2b]
    | succ i2 =>
      have h3 := ih i2 (by simp at h; omega)
      simp only [List.set, List.getD_cons_succ, List.count_cons]
      omega

theorem lswap_perm (l : List Int) (p i : Nat) (hp : p < l.length)
    (hi : i < l.length) : (lswap l p i).Perm l := by
  rw [List.perm_iff_count]
  intro c
  have hgd : (l.set p (l.getD i 0)).getD i 0 = l.getD i 0 := by
    rw [getD_set]
    by_cases h : i = p ∧ p < l.length
    · rw [if_pos h]
    · rw [if_neg h]
  have h1 := count_set c (l.getD p 0) (l.set p (l.getD i 0)) i (by simpa using hi)
  have h2 := count_set c (l.getD i 0) l p hp
  rw [hgd] at h1
  unfold lswap
  omega

theorem heapifyUpAux_isHeap : ∀ (fuel : Nat) (l : List Int) (i : Nat),
    i ≤ fuel → i < l.length → NearUp l i →
    IsMaxHeapList (heapifyUpAux fuel l i) := by
  intro fuel
  induction fuel with
  | zero =>
    intro l i hif hlen hnear
    have hi0 : i = 0 := by omega
    subst hi0
    simp only [heapifyUpAux]
    intro a b hblen hedge
    by_cases hbi : b = 0
    · exfalso; omega
    · exact hnear.1 a b hedge hblen hbi
  | succ fuel ih =>
    intro l i hif hlen hnear
    simp only [heapifyUpAux]
    by_cases hi0 : i = 0
    · rw [if_pos hi0]
      subst hi0
      intro a b hblen hedge
      by_cases hbi : b = 0
      · exfalso; omega
      · exact hnear.1 a b hedge hblen hbi
    · rw [if_neg hi0]
      by_cases hstop : l.getD i 0 ≤ l.getD ((i - 1) / 2) 0
      · rw [if_pos hstop]
        intro a b hblen hedge
        by_cases hbi : b = i
        · have ha : a = (i - 1) / 2 := by omega
          rw [hbi, ha]
          exact hstop
        · exact hnear.1 a b hedge hblen hbi
      · rw [if_neg hstop]
        have hplt : (i - 1) / 2 < i := by omega
        have hG : ∀ x, (lswap l ((i - 1) / 2) i).getD x 0 =
            if x = i then l.getD ((i - 1) / 2) 0
            else if x = (i - 1) / 2 then l.getD i 0
            else l.getD x 0 :=
          fun x => lswap_getD l ((i - 1) / 2) i x (by omega) hlen
        apply ih (lswap l ((i - 1) / 2) i) ((i - 1) / 2) (by omega)
          (by rw [lswap_length]; omega)
        constructor
        · intro a b hedge hblen hbp
          rw [lswap_length] at hblen
          rw [hG a, hG b]
          by_cases hbi : b = i
          · have ha : a = (i - 1) / 2 := by omega
            rw [if_pos hbi, ha, if_neg (by omega : ¬ ((i - 1) / 2 = i)),
              if_pos rfl]
            exact le_of_lt (not_le.mp hstop)
          · rw [if_neg hbi, if_neg hbp]
            by_cases hai : a = i
            · rw [if_pos hai]
              exact hnear.2 b (by omega) hblen (by omega)
            · rw [if_neg hai]
              by_cases hap : a = (i - 1) / 2
              · rw [if_pos hap]
                have h1 : l.getD b 0 ≤ l.getD ((i - 1) / 2) 0 :=
                  hnear.1 ((i - 1) / 2) b (by omega) hblen hbi
                exact le_trans h1 (le_of_lt (not_le.mp hstop))
              · rw [if_neg hap]
                exact hnear.1 a b hedge hblen hbi
        · intro b hedge hblen hpos
          rw [lswap_length] at hblen
          rw [hG b, hG (((i - 1) / 2 - 1) / 2)]
          rw [if_neg (by omega : ¬ (((i - 1) / 2 - 1) / 2 = i)),
            if_neg (by omega : ¬ (((i - 1) / 2 - 1) / 2 = (i - 1) / 2))]
          by_cases hbi : b = i
          · rw [if_pos hbi]
            exact hnear.1 (((i - 1) / 2 - 1) / 2) ((i - 1) / 2) (by omega)
              (by omega) (by omega)
          · rw [if_neg hbi, if_neg (by omega : ¬ (b = (i - 1) / 2))]
            have h1 : l.getD b 0 ≤ l.getD ((i - 1) / 2) 0 :=
              hnear.1 ((i - 1) / 2) b (by omega) hblen hbi
            have h2 : l.getD ((i - 1) / 2) 0 ≤ l.getD (((i - 1) / 2 - 1) / 2) 0 :=
              hnear.1 (((i - 1) / 2 - 1) / 2) ((i - 1) / 2) (by omega)
                (by omega) (by omega)
            exact le_trans h1 h2

theorem largestChild_spec (l : List Int) (i : Nat) :
    (largestChild l i = i ∧
      (∀ b, (b = 2 * i + 1 ∨ b = 2 * i + 2) → b < l.length →
        l.getD b 0 ≤ l.getD i 0)) ∨
    (largestChild l i ≠ i ∧
      (largestChild l i = 2 * i + 1 ∨ largestChild l i = 2 * i + 2) ∧
      largestChild l i < l.length ∧
      l.getD i 0 < l.getD (largestChild l i) 0 ∧
      (∀ b, (b = 2 * i + 1 ∨ b = 2 * i + 2) → b < l.length →
        l.getD b 0 ≤ l.getD (largestChild l i) 0)) := by
  unfold largestChild
  dsimp only
  by_cases h1 : 2 * i + 1 < l.length ∧ l.getD i 0 < l.getD (2 * i + 1) 0
  · rw [if_pos h1]
    by_cases h2 : 2 * i + 2 < l.length ∧
        l.getD (2 * i + 1) 0 < l.getD (2 * i + 2) 0
    · rw [if_pos h2]
      refine Or.inr ⟨by omega, Or.inr rfl, h2.1, lt_trans h1.2 h2.2, ?_⟩
      rintro b (rfl | rfl) hb
      · exact le_of_lt h2.2
      · exact le_refl _
    · rw [if_neg h2]
      refine Or.inr ⟨by omega, Or.inl rfl, h1.1, h1.2, ?_⟩
      rintro b (rfl | rfl) hb
      · exact le_refl _
      · by_cases hblen : 2 * i + 2 < l.length
        · have := h2; push_neg at this
          exact this hblen
        · exfalso; omega
  · rw [if_neg h1]
    by_cases h2 : 2 * i + 2 < l.length ∧ l.getD i 0 < l.getD (2 * i + 2) 0
    · rw [if_pos h2]
      refine Or.inr ⟨by omega, Or.inr rfl, h2.1, h2.2, ?_⟩
      rintro b (rfl | rfl) hb
      · have h1b := h1; push_neg at h1b
        exact le_trans (h1b hb) (le_of_lt h2.2)
      · exact le_refl _
    · rw [if_neg h2]
      refine Or.inl ⟨rfl, ?_⟩
      rintro b (rfl | rfl) hb
      · have h1b := h1; push_neg at h1b
        exact h1b hb
      · have h2b := h2; push_neg at h2b
        exact h2b hb

theorem heapifyDownAux_isHeap : ∀ (fuel : Nat) (l : List Int) (i : Nat),
    l.length ≤ fuel + i → NearDown l i →
    IsMaxHeapList (heapifyDownAux fuel l i) := by
  intro fuel
  induction fuel with
  | zero =>
    intro l i hfuel hnear
    simp only [heapifyDownAux]
    intro a b hblen hedge
    by_cases hai : a = i
    · exfalso; subst hai; omega
    · exact hnear.1 a b hedge hblen hai
  | succ fuel ih =>
    intro l i hfuel hnear
    simp only [heapifyDownAux]
    rcases largestChild_spec l i with ⟨heq, hmax⟩ | ⟨hne, hchild, hlt, hgt, hmax⟩
    · rw [if_pos heq]
      intro a b hblen hedge
      by_cases hai : a = i
      · subst hai; exact hmax b hedge hblen
      · exact hnear.1 a b hedge hblen hai
    · rw [if_neg hne]
      have him : i < largestChild l i := by omega
      have hilen : i < l.length := by omega
      have hG : ∀ x, (lswap l i (largestChild l i)).getD x 0 =
          if x = largestChild l i then l.getD i 0
          else if x = i then l.getD (largestChild l i) 0
          else l.getD x 0 :=
        fun x => lswap_getD l i (largestChild l i) x hilen hlt
      apply ih (lswap l i (largestChild l i)) (largestChild l i)
        (by rw [lswap_length]; omega)
      constructor
      · intro a b hedge hblen ham
        rw [lswap_length] at hblen
        rw [hG a, hG b]
        by_cases hai : a = i
        · by_cases hbm : b = largestChild l i
          · rw [if_pos hbm, if_neg (by omega : ¬ a = largestChild l i), if_pos hai]
            exact le_of_lt hgt
          · rw [if_neg hbm, if_neg (by omega : ¬ b = i),
              if_neg (by omega : ¬ a = largestChild l i), if_pos hai]
            exact hmax b (by omega) hblen
        · by_cases hbi : b = i
          · rw [if_neg (by omega : ¬ b = largestChild l i), if_pos hbi,
              if_neg ham, if_neg hai]
            have ha : a = (i - 1) / 2 := by omega
            have h0i : 0 < i := by omega
            rw [ha]
            exact hnear.2 (largestChild l i) hchild hlt h0i
          · by_cases hbm : b = largestChild l i
            · exfalso; omega
            · rw [if_neg hbm, if_neg hbi, if_neg ham, if_neg hai]
              exact hnear.1 a b hedge hblen hai
      · intro b hedge hblen hposm
        rw [lswap_length] at hblen
        have hpm : (largestChild l i - 1) / 2 = i := by omega
        rw [hpm, hG b, hG i]
        rw [if_neg (by omega : ¬ i = largestChild l i), if_pos rfl]
        rw [if_neg (by omega : ¬ b = largestChild l i),
          if_neg (by omega : ¬ b = i)]
        exact hnear.1 (largestChild l i) b hedge hblen (by omega)

theorem heapifyUpAux_perm : ∀ (fuel : Nat) (l : List Int) (i : Nat),
    i < l.length → (heapifyUpAux fuel l i).Perm l := by
  intro fuel
  induction fuel with
  | zero => intro l i _; simp [heapifyUpAux]
  | succ fuel ih =>
    intro l i hlen
    simp only [heapifyUpAux]
    by_cases hi0 : i = 0
    · rw [if_pos hi0]
    · rw [if_neg hi0]
      by_cases hstop : l.getD i 0 ≤ l.getD ((i - 1) / 2) 0
      · rw [if_pos hstop]
      · rw [if_neg hstop]
        exact (ih (lswap l ((i - 1) / 2) i) ((i - 1) / 2)
          (by rw [lswap_length]; omega)).trans
          (lswap_perm l ((i - 1) / 2) i (by omega) hlen)

theorem heapifyDownAux_perm : ∀ (fuel : Nat) (l : List Int) (i : Nat),
    (heapifyDownAux fuel l i).Perm l := by
  intro fuel
  induction fuel with
  | zero => intro l i; simp [heapifyDownAux]
  | succ fuel ih =>
    intro l i
    simp only [heapifyDownAux]
    rcases largestChild_spec l i with ⟨heq, _⟩ | ⟨hne, hchild, hlt, _, _⟩
    · rw [if_pos heq]
    · rw [if_neg hne]
      exact (ih (lswap l i (largestChild l i)) (largestChild l i)).trans
        (lswap_perm l i (largestChild l i) (by omega) hlt)

theorem heapifyDownAux_length : ∀ (fuel : Nat) (l : List Int) (i : Nat),
    (heapifyDownAux fuel l i).length = l.length := by
  intro fuel l i
  exact (heapifyDownAux_perm fuel l i).length_eq

/-- The root of a max heap bounds every element. -/
theorem isMaxHeapList_root_max (l : List Int) (hh : IsMaxHeapList l) :
    ∀ x ∈ l, x ≤ l.getD 0 0 := by
  have hidx : ∀ j, j < l.length → l.getD j 0 ≤ l.getD 0 0 := by
    intro j
    induction j using Nat.strong_induction_on with
    | _ j ihj =>
      intro hjlen
      cases Nat.eq_zero_or_pos j with
      | inl h => rw [h]
      | inr h =>
        have hedge : j = 2 * ((j - 1) / 2) + 1 ∨ j = 2 * ((j - 1) / 2) + 2 := by
          omega
        exact le_trans (hh ((j - 1) / 2) j hjlen hedge)
          (ihj ((j - 1) / 2) (by omega) (by omega))
  intro x hx
  obtain ⟨j, hj, rfl⟩ := List.mem_iff_getElem.mp hx
  have : l.getD j 0 = l[j] := List.getD_eq_getElem l 0 hj
  rw [← this]
  exact hidx j hj

/-- Pushing onto a max heap (append then sift up) preserves the invariant. -/
theorem heapPushList_isHeap (d : List Int) (v : Int) (hh : IsMaxHeapList d) :
    IsMaxHeapList (heapifyUp (d ++ [v]) d.length) := by
  apply heapifyUpAux_isHeap d.length (d ++ [v]) d.length (le_refl _)
    (by simp)
  constructor
  · intro a b hedge hblen hbne
    have hb : b < d.length := by simp at hblen; omega
    have ha : a < d.length := by omega
    rw [List.getD_append _ _ _ _ hb, List.getD_append _ _ _ _ ha]
    exact hh a b hb hedge
  · intro b hedge hblen _
    exfalso
    simp at hblen
    omega

theorem heapPushList_perm (d : List Int) (v : Int) :
    (heapifyUp (d ++ [v]) d.length).Perm (d ++ [v]) :=
  heapifyUpAux_perm d.length (d ++ [v]) d.length (by simp)

theorem heapPushList_length (d : List Int) (v : Int) :
    (heapifyUp (d ++ [v]) d.length).length = d.length + 1 := by
  rw [heapifyUp_length]; simp

theorem getD_dropLast : ∀ (l : List Int) (x : Nat), x + 1 < l.length →
    l.dropLast.getD x 0 = l.getD x 0 := by
  intro l
  induction l with
  | nil => intro x h; simp at h
  | cons a t ih =>
    intro x h
    cases t with
    | nil => simp at h
    | cons b t2 =>
      rw [List.dropLast_cons₂]
      cases x with
      | zero => simp
      | succ x2 =>
        simp only [List.getD_cons_succ]
        exact ih x2 (by simp at h ⊢; omega)

/-- The data produced by extract/pop (last element moved to the root, length
shrunk, then sift down) is again a max heap. -/
theorem heapPopList_isHeap (d : List Int) (hh : IsMaxHeapList d) :
    IsMaxHeapList
      (heapifyDown ((d.set 0 (d.getD (d.length - 1) 0)).dropLast) 0) := by
  apply heapifyDownAux_isHeap _ _ 0 (by omega)
  constructor
  · intro a b hedge hblen ha0
    have hlen2 : ((d.set 0 (d.getD (d.length - 1) 0)).dropLast).length =
        d.length - 1 := by simp
    rw [hlen2] at hblen
    have hb1 : 1 ≤ b := by omega
    have hGb : ((d.set 0 (d.getD (d.length - 1) 0)).dropLast).getD b 0 =
        d.getD b 0 := by
      rw [getD_dropLast _ _ (by simp; omega), getD_set]
      rw [if_neg (by omega)]
    have hGa : ((d.set 0 (d.getD (d.length - 1) 0)).dropLast).getD a 0 =
        d.getD a 0 := by
      rw [getD_dropLast _ _ (by simp; omega), getD_set]
      rw [if_neg (by omega)]
    rw [hGa, hGb]
    exact hh a b (by omega) hedge
  · intro b _ _ h0
    exact absurd h0 (by omega)

theorem heapPopList_perm (d : List Int) (hne : d ≠ []) :
    (d.getD 0 0 ::
      heapifyDown ((d.set 0 (d.getD (d.length - 1) 0)).dropLast) 0).Perm d := by
  refine List.Perm.trans (List.Perm.cons _ (heapifyDownAux_perm _ _ 0)) ?_
  cases d with
  | nil => exact absurd rfl hne
  | cons d0 rest =>
    cases rest with
    | nil => simp
    | cons r t =>
      simp only [List.getD_cons_zero, List.length_cons, Nat.add_sub_cancel,
        List.getD_cons_succ, List.set]
      rw [List.dropLast_cons₂]
      refine List.Perm.cons d0 ?_
      have hlast : (r :: t).getD ((r :: t).length - 1) 0 =
          (r :: t).getLast (by simp) := by
        rw [List.getLast_eq_getElem]
        exact List.getD_eq_getElem _ 0 (by simp)
      have hsplit : (r :: t).dropLast ++ [(r :: t).getLast (by simp)] = r :: t :=
        List.dropLast_append_getLast (by simp)
      rw [show t.length = (r :: t).length - 1 from by simp, hlast]
      conv_rhs => rw [← hsplit]
      exact (List.perm_append_singleton _ _).symm

theorem heapPopList_length (d : List Int) :
    (heapifyDown ((d.set 0 (d.getD (d.length - 1) 0)).dropLast) 0).length =
      d.length - 1 := by
  rw [heapifyDown, heapifyDownAux_length]
  simp

theorem int64MaxHeapInsert_data (h : Int64MaxHeap) (v : Int) :
    (int64MaxHeapInsert h v).data = heapifyUp (h.data ++ [v]) h.data.length := by
  unfold int64MaxHeapInsert
  by_cases hc : h.capacity < h.data.length + 1
  · rw [if_pos hc]
  · rw [if_neg hc]

theorem int64PriorityQueuePush_data (pq : Int64PriorityQueue) (v : Int) :
    (int64PriorityQueuePush pq v).data =
      heapifyUp (pq.data ++ [v]) pq.data.length := by
  unfold int64PriorityQueuePush
  by_cases hc : pq.capacity < pq.data.length + 1
  · rw [if_pos hc]
  · rw [if_neg hc]

theorem int64MaxHeapExtract_eq (h : Int64MaxHeap) :
    int64MaxHeapExtract h =
      if h.data.length = 0 then none
      else some (h.data.getD 0 0,
        { h with data :=
            (heapifyDown ((h.data.set 0 (h.data.getD (h.data.length - 1) 0)).dropLast) 0) }) := by
  unfold int64MaxHeapExtract
  by_cases h0 : h.data.length = 0
  · rw [if_pos h0]
  · rw [if_neg h0]

theorem int64PriorityQueuePop_eq (pq : Int64PriorityQueue) :
    int64PriorityQueuePop pq =
      if pq.data.length = 0 then none
      else some (pq.data.getD 0 0,
        { pq with data :=
            (heapifyDown ((pq.data.set 0 (pq.data.getD (pq.data.length - 1) 0)).dropLast) 0) }) := by
  unfold int64PriorityQueuePop
  by_cases h0 : pq.data.length = 0
  · simp [h0]
  · simp only [if_neg h0]
    by_cases h1 : pq.data.length - 1 = 0
    · rw [if_pos h1]
      obtain ⟨d, hd⟩ := List.length_eq_one.mp (by omega : pq.data.length = 1)
      rw [hd]
      rfl
    · rw [if_neg h1]

theorem extractAllHeap_spec : ∀ (n : Nat) (h : Int64MaxHeap),
    h.data.length = n → IsMaxHeapList h.data →
    (extractAllHeap n h).Perm h.data ∧
    List.Sorted (· ≥ ·) (extractAllHeap n h) := by
  intro n
  induction n with
  | zero =>
    intro h hlen hh
    constructor
    · simp [extractAllHeap, List.length_eq_zero.mp hlen]
    · simp [extractAllHeap]
  | succ n ih =>
    intro h hlen hh
    have hne : ¬ h.data.length = 0 := by omega
    simp only [extractAllHeap, int64MaxHeapExtract_eq, if_neg hne]
    have hlen2 : (heapifyDown
        ((h.data.set 0 (h.data.getD (h.data.length - 1) 0)).dropLast) 0).length =
        n := by rw [heapPopList_length]; omega
    have hh2 := heapPopList_isHeap h.data hh
    have hperm2 := heapPopList_perm h.data
      (by intro hcon; rw [hcon] at hlen; simp at hlen)
    obtain ⟨ihp, ihs⟩ := ih
      { h with data :=
          (heapifyDown ((h.data.set 0 (h.data.getD (h.data.length - 1) 0)).dropLast) 0) }
      hlen2 hh2
    constructor
    · exact (List.Perm.cons _ ihp).trans hperm2
    · rw [List.sorted_cons]
      refine ⟨?_, ihs⟩
      intro b hb
      have hb2 := ihp.mem_iff.mp hb
      have hb3 : b ∈ h.data := hperm2.mem_iff.mp (List.mem_cons_of_mem _ hb2)
      exact isMaxHeapList_root_max h.data hh b hb3

theorem heapOfList_spec (c : Nat) (l : List Int) :
    IsMaxHeapList (heapOfList c l).data ∧ (heapOfList c l).data.Perm l := by
  have main : ∀ (l2 : List Int) (a : Int64MaxHeap), IsMaxHeapList a.data →
      IsMaxHeapList (l2.foldl int64MaxHeapInsert a).data ∧
      (l2.foldl int64MaxHeapInsert a).data.Perm (a.data ++ l2) := by
    intro l2
    induction l2 with
    | nil =>
      intro a ha
      simp only [List.foldl_nil, List.append_nil]
      exact ⟨ha, List.Perm.refl _⟩
    | cons x t ih =>
      intro a ha
      have hdata := int64MaxHeapInsert_data a x
      have h1 : IsMaxHeapList (int64MaxHeapInsert a x).data := by
        rw [hdata]; exact heapPushList_isHeap a.data x ha
      obtain ⟨p1, p2⟩ := ih (int64MaxHeapInsert a x) h1
      refine ⟨p1, ?_⟩
      simp only [List.foldl_cons]
      refine p2.trans ?_
      rw [hdata]
      refine (List.Perm.append_right t (heapPushList_perm a.data x)).trans ?_
      rw [List.append_assoc]
      exact List.Perm.refl _
  have base : IsMaxHeapList ([] : List Int) := by
    intro a b hb _; simp at hb
  obtain ⟨h1, h2⟩ := main l { data := [], capacity := c } base
  exact ⟨h1, by simpa using h2⟩

/-- C4.  Heap sort property: inserting any list of `int64` values into an
empty max heap (any positive initial capacity) and then extracting
`n = length` times yields exactly the input multiset in non-increasing
order; in particular, after inserting `3,-2,9,-8,15,-18,21,-24,27,-30` the
extraction sequence is `27,21,15,9,3,-2,-8,-18,-24,-30`. -/
theorem heap_sort_property (c : Nat) (_hc : 1 ≤ c) (l : List Int) :
    (extractAllHeap l.length (heapOfList c l)).Perm l ∧
    List.Sorted (· ≥ ·) (extractAllHeap l.length (heapOfList c l)) ∧
    extractAllHeap 10 (heapOfList 4 [3,-2,9,-8,15,-18,21,-24,27,-30]) =
      [27,21,15,9,3,-2,-8,-18,-24,-30] := by
  obtain ⟨hh, hp⟩ := heapOfList_spec c l
  obtain ⟨e1, e2⟩ := extractAllHeap_spec l.length (heapOfList c l) hp.length_eq hh
  exact ⟨e1.trans hp, e2, by decide⟩

theorem heap_sort_property_witness :
    1 ≤ 4 ∧
    ((extractAllHeap 10 (heapOfList 4 [3,-2,9,-8,15,-18,21,-24,27,-30])).Perm
        [3,-2,9,-8,15,-18,21,-24,27,-30] ∧
      List.Sorted (· ≥ ·)
        (extractAllHeap 10 (heapOfList 4 [3,-2,9,-8,15,-18,21,-24,27,-30])) ∧
      extractAllHeap 10 (heapOfList 4 [3,-2,9,-8,15,-18,21,-24,27,-30]) =
        [27,21,15,9,3,-2,-8,-18,-24,-30]) :=
  ⟨by decide, heap_sort_property 4 (by decide) [3,-2,9,-8,15,-18,21,-24,27,-30]⟩

theorem applyHeapOp_isHeap (h : Int64MaxHeap) (op : HeapOp)
    (hh : IsMaxHeapList h.data) : IsMaxHeapList (applyHeapOp h op).data := by
  cases op with
  | insert v =>
    show IsMaxHeapList (int64MaxHeapInsert h v).data
    rw [int64MaxHeapInsert_data]
    exact heapPushList_isHeap h.data v hh
  | extract =>
    show IsMaxHeapList (match int64MaxHeapExtract h with
      | some (_, h2) => h2 | none => h).data
    rw [int64MaxHeapExtract_eq]
    by_cases h0 : h.data.length = 0
    · rw [if_pos h0]; exact hh
    · rw [if_neg h0]
      exact heapPopList_isHeap h.data hh

theorem applyPQOp_isHeap (pq : Int64PriorityQueue) (op : HeapOp)
    (hh : IsMaxHeapList pq.data) : IsMaxHeapList (applyPQOp pq op).data := by
  cases op with
  | insert v =>
    show IsMaxHeapList (int64PriorityQueuePush pq v).data
    rw [int64PriorityQueuePush_data]
    exact heapPushList_isHeap pq.data v hh
  | extract =>
    show IsMaxHeapList (match int64PriorityQueuePop pq with
      | some (_, pq2) => pq2 | none => pq).data
    rw [int64PriorityQueuePop_eq]
    by_cases h0 : pq.data.length = 0
    · rw [if_pos h0]; exact hh
    · rw [if_neg h0]
      exact heapPopList_isHeap pq.data hh

/-- C5.  Max-heap invariant preservation: after every sequence of insert and
extract operations on a heap (or priority queue) created with capacity
`c > 0`, every in-range child is at most its parent:
`data[i] >= data[2i+1]` and `data[i] >= data[2i+2]` whenever the child index
is inside `[0, size)`. -/
theorem heap_invariant_preserved (c : Nat) (_hc : 1 ≤ c) (ops : List HeapOp) :
    IsMaxHeapList (runHeapOps c ops).data ∧
    IsMaxHeapList (runPQOps c ops).data := by
  have base : IsMaxHeapList ([] : List Int) := by
    intro a b hb _; simp at hb
  constructor
  · have main : ∀ (l : List HeapOp) (a : Int64MaxHeap), IsMaxHeapList a.data →
        IsMaxHeapList (l.foldl applyHeapOp a).data := by
      intro l
      induction l with
      | nil => intro a ha; exact ha
      | cons op t ih =>
        intro a ha
        exact ih (applyHeapOp a op) (applyHeapOp_isHeap a op ha)
    exact main ops { data := [], capacity := c } base
  · have main : ∀ (l : List HeapOp) (a : Int64PriorityQueue),
        IsMaxHeapList a.data → IsMaxHeapList (l.foldl applyPQOp a).data := by
      intro l
      induction l with
      | nil => intro a ha; exact ha
      | cons op t ih =>
        intro a ha
        exact ih (applyPQOp a op) (applyPQOp_isHeap a op ha)
    exact main ops { data := [], capacity := c } base

theorem heap_invariant_preserved_witness :
    1 ≤ 2 ∧
    (IsMaxHeapList (runHeapOps 2
        [HeapOp.insert 3, HeapOp.insert 5, HeapOp.extract, HeapOp.insert 1]).data ∧
      IsMaxHeapList (runPQOps 2
        [HeapOp.insert 3, HeapOp.insert 5, HeapOp.extract, HeapOp.insert 1]).data) :=
  ⟨by decide, heap_invariant_preserved 2 (by decide)
    [HeapOp.insert 3, HeapOp.insert 5, HeapOp.extract, HeapOp.insert 1]⟩

/-! ### Chaining hashmap lemmas (toward C1 and C7) -/

theorem setBucket_self {A : Type} (bks : Nat → List (Int × A)) (i : Nat)
    (chain : List (Int × A)) : setBucket bks i chain i = chain := by
  unfold setBucket
  rw [if_pos rfl]

theorem chainHasKey_iff {A : Type} (chain : List (Int × A)) (k : Int) :
    chainHasKey chain k = true ↔ k ∈ chain.map Prod.fst := by
  unfold chainHasKey
  rw [List.any_eq_true]
  constructor
  · rintro ⟨e, he, hk⟩
    simp at hk
    exact hk ▸ List.mem_map_of_mem Prod.fst he
  · intro hk
    obtain ⟨e, he, hk2⟩ := List.mem_map.mp hk
    exact ⟨e, he, by simp [hk2]⟩

theorem chainLookup_of_hasKey {A : Type} (chain : List (Int × A)) (k : Int)
    (v : A) (hk : chainHasKey chain k = true) :
    chainLookup (chainSet chain k v) k = some v := by
  induction chain with
  | nil => simp [chainHasKey] at hk
  | cons e t ih =>
    by_cases he : e.1 = k
    · simp [chainSet, chainLookup, he]
    · have hk2 : chainHasKey t k = true := by
        unfold chainHasKey at hk ⊢
        simp only [List.any_cons, Bool.or_eq_true] at hk
        rcases hk with h | h
        · exact absurd (by simpa using h) he
        · exact h
      simp only [chainSet, if_neg he, chainLookup]
      exact ih hk2

theorem chainLookup_of_not_hasKey {A : Type} (chain : List (Int × A)) (k : Int)
    (hk : chainHasKey chain k = false) : chainLookup chain k = none := by
  induction chain with
  | nil => rfl
  | cons e t ih =>
    simp only [chainHasKey, List.any_cons, Bool.or_eq_false_iff] at hk
    simp only [chainLookup]
    rw [if_neg (by simpa using hk.1)]
    exact ih (by simp [chainHasKey, hk.2])

theorem chainLookup_none_of_not_mem {A : Type} (chain : List (Int × A))
    (k : Int) (hk : k ∉ chain.map Prod.fst) : chainLookup chain k = none := by
  apply chainLookup_of_not_hasKey
  rw [← Bool.not_eq_true, chainHasKey_iff]
  exact hk

theorem chainRemoveKey_sublist {A : Type} (chain : List (Int × A)) (k : Int) :
    (chainRemoveKey chain k).Sublist chain := by
  induction chain with
  | nil => simp [chainRemoveKey]
  | cons e t ih =>
    by_cases he : e.1 = k
    · simp only [chainRemoveKey, if_pos he]
      exact List.sublist_cons_self e t
    · simp only [chainRemoveKey, if_neg he]
      exact List.Sublist.cons₂ e ih

theorem chainLookup_removeKey {A : Type} (chain : List (Int × A)) (k : Int)
    (hnd : (chain.map Prod.fst).Nodup) :
    chainLookup (chainRemoveKey chain k) k = none := by
  induction chain with
  | nil => rfl
  | cons e t ih =>
    simp only [List.map_cons, List.nodup_cons] at hnd
    by_cases he : e.1 = k
    · simp only [chainRemoveKey, if_pos he]
      exact chainLookup_none_of_not_mem t k (he ▸ hnd.1)
    · simp only [chainRemoveKey, if_neg he, chainLookup]
      exact ih hnd.2

theorem map_fst_chainSet {A : Type} (chain : List (Int × A)) (k : Int) (v : A) :
    (chainSet chain k v).map Prod.fst = chain.map Prod.fst := by
  induction chain with
  | nil => rfl
  | cons e t ih =>
    by_cases he : e.1 = k
    · simp [chainSet, he]
    · simp [chainSet, he, ih]

theorem mem_chainSet {A : Type} (chain : List (Int × A)) (k : Int) (v : A)
    (e : Int × A) (he : e ∈ chainSet chain k v) :
    e ∈ chain ∨ (e = (k, v) ∧ k ∈ chain.map Prod.fst) := by
  induction chain with
  | nil => simp [chainSet] at he
  | cons e2 t ih =>
    by_cases h2 : e2.1 = k
    · simp only [chainSet, if_pos h2] at he
      rcases List.mem_cons.mp he with h | h
      · exact Or.inr ⟨h, by simp [← h2]⟩
      · exact Or.inl (List.mem_cons_of_mem _ h)
    · simp only [chainSet, if_neg h2] at he
      rcases List.mem_cons.mp he with h | h
      · exact Or.inl (h ▸ List.mem_cons_self _ _)
      · rcases ih h with h3 | h3
        · exact Or.inl (List.mem_cons_of_mem _ h3)
        · exact Or.inr ⟨h3.1, by simp [h3.2]⟩

theorem rehashFold_bucket {A : Type} (g : Int → Nat) :
    ∀ (es : List (Int × A)) (acc : Nat → List (Int × A)) (j : Nat),
    (es.foldl (fun a e => bucketCons a (g e.1) e) acc) j =
      (es.filter (fun e => g e.1 = j)).reverse ++ acc j := by
  intro es
  induction es with
  | nil => intro acc j; simp
  | cons e t ih =>
    intro acc j
    simp only [List.foldl_cons, ih, List.filter_cons]
    by_cases he : g e.1 = j
    · rw [if_pos (by simpa using he)]
      simp only [List.reverse_cons, List.append_assoc]
      congr 1
      unfold bucketCons
      rw [if_pos he.symm]
      simp
    · rw [if_neg (by simpa using he)]
      congr 1
      unfold bucketCons
      rw [if_neg (fun hc => he hc.symm)]

theorem fold_over_buckets {A : Type} (cap2 : Int) (bks : Nat → List (Int × A)) :
    ∀ (is : List Nat) (acc : Nat → List (Int × A)),
    is.foldl (fun a i => rehashChain cap2 a (bks i)) acc =
      (is.foldr (fun i r => bks i ++ r) []).foldl
        (fun a e => bucketCons a (bucketIdx e.1 cap2) e) acc := by
  intro is
  induction is with
  | nil => intro acc; rfl
  | cons i t ih =>
    intro acc
    simp only [List.foldl_cons, List.foldr_cons, List.foldl_append]
    exact ih (rehashChain cap2 acc (bks i))

theorem resize_bucket {A : Type} (m : ChainMap A) (j : Nat) :
    (resizeChainMap m).buckets j =
      ((allEntries m).filter
        (fun e => bucketIdx e.1 (m.capacity * 2) = j)).reverse := by
  show (List.range m.capacity.toNat).foldl
      (fun acc i => rehashChain (m.capacity * 2) acc (m.buckets i))
      (fun _ => []) j = _
  rw [fold_over_buckets]
  rw [rehashFold_bucket (fun k => bucketIdx k (m.capacity * 2))]
  simp [allEntries]

theorem mem_foldr_concat {A : Type} (bks : Nat → List (Int × A)) :
    ∀ (is : List Nat) (e : Int × A),
    e ∈ is.foldr (fun i r => bks i ++ r) [] ↔ ∃ i ∈ is, e ∈ bks i := by
  intro is
  induction is with
  | nil => intro e; simp
  | cons i t ih =>
    intro e
    simp [ih]

theorem nodup_foldr_concat {A : Type} (bks : Nat → List (Int × A))
    (g : Int → Nat) :
    ∀ (is : List Nat), is.Nodup →
    (∀ i ∈ is, ((bks i).map Prod.fst).Nodup) →
    (∀ i ∈ is, ∀ e ∈ bks i, g e.1 = i) →
    ((is.foldr (fun i r => bks i ++ r) []).map Prod.fst).Nodup := by
  intro is
  induction is with
  | nil => intro _ _ _; simp
  | cons i t ih =>
    intro hnd hb hplace
    simp only [List.foldr_cons, List.map_append]
    rw [List.nodup_append]
    simp only [List.nodup_cons] at hnd
    refine ⟨hb i (by simp), ih hnd.2 (fun i2 h2 => hb i2 (by simp [h2]))
      (fun i2 h2 => hplace i2 (by simp [h2])), ?_⟩
    intro k hk1 hk2
    obtain ⟨e1, he1, hke1⟩ := List.mem_map.mp hk1
    obtain ⟨e2, he2, hke2⟩ := List.mem_map.mp hk2
    obtain ⟨i2, hi2, he2b⟩ := (mem_foldr_concat bks t e2).mp he2
    have h1 : g k = i := hke1 ▸ hplace i (by simp) e1 he1
    have h2 : g k = i2 := hke2 ▸ hplace i2 (by simp [hi2]) e2 he2b
    have h3 : i = i2 := by omega
    exact hnd.1 (h3 ▸ hi2)

theorem chainCoh_create (A : Type) : ChainCoh (createInt64Hashmap (A := A)) := by
  intro i
  constructor
  · intro e he; simp [createInt64Hashmap] at he
  · simp [createInt64Hashmap]

theorem chainCoh_resize {A : Type} (m : ChainMap A) (hc : ChainCoh m) :
    ChainCoh (resizeChainMap m) := by
  intro j
  constructor
  · intro e he
    rw [resize_bucket] at he
    simp only [List.mem_reverse, List.mem_filter] at he
    show bucketIdx e.1 (m.capacity * 2) = j
    simpa using he.2
  · rw [resize_bucket]
    have hall : ((allEntries m).map Prod.fst).Nodup := by
      unfold allEntries
      apply nodup_foldr_concat m.buckets (fun k => bucketIdx k m.capacity)
      · exact List.nodup_range _
      · intro i _; exact (hc i).2
      · intro i _ e he; exact (hc i).1 e he
    have hsub : (((allEntries m).filter
        (fun e => bucketIdx e.1 (m.capacity * 2) = j)).map Prod.fst).Sublist
        ((allEntries m).map Prod.fst) :=
      (List.filter_sublist _).map Prod.fst
    rw [List.map_reverse, List.nodup_reverse]
    exact hsub.nodup hall

theorem chainCoh_upsertBody {A : Type} (entryOk : Bool) (m : ChainMap A)
    (k : Int) (v : A) (hc : ChainCoh m) :
    ChainCoh (upsertChainBody entryOk m k v).1 := by
  unfold upsertChainBody
  by_cases hk : chainHasKey (m.buckets (bucketIdx k m.capacity)) k = true
  · rw [if_pos hk]
    intro j
    dsimp only
    by_cases hj : j = bucketIdx k m.capacity
    · subst hj
      constructor
      · intro e he
        rw [setBucket_self] at he
        rcases mem_chainSet _ _ _ _ he with h | h
        · exact (hc _).1 e h
        · rw [h.1]
      · rw [setBucket_self, map_fst_chainSet]
        exact (hc _).2
    · unfold setBucket
      rw [if_neg hj]
      exact hc j
  · rw [if_neg hk]
    cases entryOk with
    | false => exact hc
    | true =>
      simp only [if_true]
      intro j
      dsimp only
      by_cases hj : j = bucketIdx k m.capacity
      · subst hj
        constructor
        · intro e he
          rw [setBucket_self] at he
          rcases List.mem_cons.mp he with h | h
          · rw [h]
          · exact (hc _).1 e h
        · rw [setBucket_self]
          simp only [List.map_cons, List.nodup_cons]
          refine ⟨?_, (hc _).2⟩
          rw [← chainHasKey_iff]
          simpa using hk
      · unfold setBucket
        rw [if_neg hj]
        exact hc j

theorem chainCoh_upsertA {A : Type} (ro eo : Bool) (m : ChainMap A) (k : Int)
    (v : A) (hc : ChainCoh m) : ChainCoh (upsertChainMapA ro eo m k v).1 := by
  unfold upsertChainMapA
  by_cases hl : chainLoadExceeded m = true
  · rw [if_pos hl]
    cases ro with
    | false => exact hc
    | true =>
      simp only [if_true]
      exact chainCoh_upsertBody eo (resizeChainMap m) k v (chainCoh_resize m hc)
  · rw [if_neg hl]
    exact chainCoh_upsertBody eo m k v hc

theorem chainCoh_remove {A : Type} (m : ChainMap A) (k : Int)
    (hc : ChainCoh m) : ChainCoh (removeChainMap m k).1 := by
  unfold removeChainMap
  by_cases hk : chainHasKey (m.buckets (bucketIdx k m.capacity)) k = true
  · rw [if_pos hk]
    intro j
    dsimp only
    by_cases hj : j = bucketIdx k m.capacity
    · subst hj
      constructor
      · intro e he
        rw [setBucket_self] at he
        exact (hc _).1 e ((chainRemoveKey_sublist _ k).mem he)
      · rw [setBucket_self]
        exact (((chainRemoveKey_sublist _ k).map Prod.fst).nodup (hc _).2)
    · unfold setBucket
      rw [if_neg hj]
      exact hc j
  · rw [if_neg hk]
    exact hc

theorem chainCoh_run {A : Type} (ops : List (MapOp A)) :
    ChainCoh (runMapOps ops) := by
  have main : ∀ (l : List (MapOp A)) (m : ChainMap A), ChainCoh m →
      ChainCoh (l.foldl applyMapOp m) := by
    intro l
    induction l with
    | nil => intro m hm; exact hm
    | cons op t ih =>
      intro m hm
      apply ih
      cases op with
      | upsert k v => exact chainCoh_upsertA true true m k v hm
      | remove k => exact chainCoh_remove m k hm
  exact main ops createInt64Hashmap (chainCoh_create A)

theorem getChainMap_upsertBody {A : Type} (m : ChainMap A) (k : Int) (v : A) :
    getChainMap (upsertChainBody true m k v).1 k = some v := by
  unfold upsertChainBody getChainMap
  by_cases hk : chainHasKey (m.buckets (bucketIdx k m.capacity)) k = true
  · rw [if_pos hk]
    show chainLookup (setBucket m.buckets (bucketIdx k m.capacity)
      (chainSet (m.buckets (bucketIdx k m.capacity)) k v)
      (bucketIdx k m.capacity)) k = some v
    rw [setBucket_self]
    exact chainLookup_of_hasKey _ _ _ hk
  · rw [if_neg hk]
    show chainLookup (setBucket m.buckets (bucketIdx k m.capacity)
      ((k, v) :: m.buckets (bucketIdx k m.capacity))
      (bucketIdx k m.capacity)) k = some v
    rw [setBucket_self]
    simp [chainLookup]

theorem getChainMap_upsert {A : Type} (m : ChainMap A) (k : Int) (v : A) :
    getChainMap (upsertChainMap m k v) k = some v := by
  unfold upsertChainMap upsertChainMapA
  by_cases hl : chainLoadExceeded m = true
  · rw [if_pos hl]
    simp only [if_true]
    exact getChainMap_upsertBody (resizeChainMap m) k v
  · rw [if_neg hl]
    exact getChainMap_upsertBody m k v

theorem getChainMap_remove {A : Type} (m : ChainMap A) (k : Int)
    (hc : ChainCoh m) : getChainMap (removeChainMap m k).1 k = none := by
  unfold removeChainMap getChainMap
  by_cases hk : chainHasKey (m.buckets (bucketIdx k m.capacity)) k = true
  · rw [if_pos hk]
    show chainLookup (setBucket m.buckets (bucketIdx k m.capacity)
      (chainRemoveKey (m.buckets (bucketIdx k m.capacity)) k)
      (bucketIdx k m.capacity)) k = none
    rw [setBucket_self]
    exact chainLookup_removeKey _ _ (hc _).2
  · rw [if_neg hk]
    exact chainLookup_of_not_hasKey _ _ (by simpa using hk)

/-- C1.  Chaining hashmap round trip, for both hashmaps at once (the value
type `A` is `Int` for `int64int64Hashmap.c` and an opaque pointer type for
`int64Hashmap.c`): in every map state reachable by upserts and removes from
`create`, `upsert(k,v)` followed by `get(k)` yields `v`, and `remove(k)`
followed by `get(k)` reports the key absent (`none`, the C `false`). -/
theorem chainmap_roundtrip (A : Type) (ops : List (MapOp A)) (k : Int) (v : A) :
    getChainMap (upsertChainMap (runMapOps ops) k v) k = some v ∧
    getChainMap (removeChainMap (runMapOps ops) k).1 k = none :=
  ⟨getChainMap_upsert (runMapOps ops) k v,
    getChainMap_remove (runMapOps ops) k (chainCoh_run ops)⟩

theorem chainLookup_some_mem {A : Type} (chain : List (Int × A)) (k : Int)
    (v : A) (h : chainLookup chain k = some v) : (k, v) ∈ chain := by
  induction chain with
  | nil => simp [chainLookup] at h
  | cons e t ih =>
    by_cases he : e.1 = k
    · simp only [chainLookup, if_pos he] at h
      have : e = (k, v) := by
        cases e
        simp at he h
        simp [he, h]
      exact this ▸ List.mem_cons_self _ _
    · simp only [chainLookup, if_neg he] at h
      exact List.mem_cons_of_mem _ (ih h)

theorem chainLookup_eq_some_of_mem {A : Type} (chain : List (Int × A))
    (k : Int) (v : A) (hnd : (chain.map Prod.fst).Nodup)
    (hm : (k, v) ∈ chain) : chainLookup chain k = some v := by
  induction chain with
  | nil => simp at hm
  | cons e t ih =>
    simp only [List.map_cons, List.nodup_cons] at hnd
    rcases List.mem_cons.mp hm with h | h
    · rw [← h]
      simp [chainLookup]
    · by_cases he : e.1 = k
      · exfalso
        apply hnd.1
        rw [he]
        exact List.mem_map_of_mem Prod.fst h
      · simp only [chainLookup, if_neg he]
        exact ih hnd.2 h

theorem chainLookup_isSome_of_mem {A : Type} (chain : List (Int × A))
    (k : Int) (hm : k ∈ chain.map Prod.fst) :
    (chainLookup chain k).isSome = true := by
  induction chain with
  | nil => simp at hm
  | cons e t ih =>
    by_cases he : e.1 = k
    · simp [chainLookup, he]
    · simp only [chainLookup, if_neg he]
      apply ih
      simp only [List.map_cons, List.mem_cons] at hm
      rcases hm with h | h
      · exact absurd h.symm he
      · exact h

theorem hashInt64_nonneg (k cap : Int) : 0 ≤ hashInt64 k cap := by
  unfold hashInt64
  exact Int.emod_nonneg _ (by norm_num)

/-- For an `int64` key and a reachable capacity (`16 * 2^j`), the bucket
index computed by `hashInt64` is inside `[0, capacity)` — the C array access
is in bounds.  (Small capacities divide `2^63`, which tames the
`INT64_MIN` sign-folding wrap; for capacities above `2^32` the final
`unsigned int` truncation keeps the index below the capacity.) -/
theorem hashInt64_lt (k cap : Int) (j : Nat) (hcap : cap = 16 * 2 ^ j)
    (hk1 : -(2 ^ 63) ≤ k) (hk2 : k < 2 ^ 63) : hashInt64 k cap < cap := by
  have hcap0 : (0 : Int) < cap := by rw [hcap]; positivity
  unfold hashInt64
  show ((if k < 0 then wrap64 (-k) else k).tmod cap) % 2 ^ 32 < cap
  set k2 := if k < 0 then wrap64 (-k) else k with hk2def
  have hk2cases : 0 ≤ k2 ∨ k2 = -(2 ^ 63) := by
    rw [hk2def]
    by_cases hneg : k < 0
    · rw [if_pos hneg]
      by_cases hmin : k = -(2 ^ 63)
      · right; rw [hmin]; decide
      · left
        unfold wrap64
        rw [Int.emod_eq_of_lt (by omega) (by omega)]
        omega
    · rw [if_neg hneg]; omega
  by_cases hbig : cap ≤ 2 ^ 32
  · rcases hk2cases with h0 | hmin
    · have ht0 : 0 ≤ k2.tmod cap := Int.tmod_nonneg cap h0
      have ht1 : k2.tmod cap < cap := Int.tmod_lt_of_pos k2 hcap0
      rw [Int.emod_eq_of_lt ht0 (by omega)]
      exact ht1
    · have hj : j + 4 ≤ 32 := by
        by_contra hcon
        have h33 : (2 : Int) ^ 33 ≤ 2 ^ (j + 4) :=
          pow_le_pow_right₀ (by norm_num) (by omega)
        have hcap2 : cap = 2 ^ (j + 4) := by rw [hcap]; ring
        have : (2 : Int) ^ 33 ≤ 2 ^ 32 := le_trans (hcap2 ▸ h33) hbig
        norm_num at this
      have hdvd : cap ∣ (2 : Int) ^ 63 := by
        rw [hcap, show (16 : Int) * 2 ^ j = 2 ^ (j + 4) from by ring]
        exact pow_dvd_pow 2 (by omega)
      have hz : k2.tmod cap = 0 := by
        rw [hmin]
        exact Int.tmod_eq_zero_of_dvd (dvd_neg.mpr hdvd)
      rw [hz]
      simpa using hcap0
  · have h1 : k2.tmod cap % 2 ^ 32 < 2 ^ 32 := Int.emod_lt_of_pos _ (by norm_num)
    omega

theorem bucketIdx_lt (k cap : Int) (j : Nat) (hcap : cap = 16 * 2 ^ j)
    (hk : Int64Range k) : bucketIdx k cap < cap.toNat := by
  have h1 := hashInt64_lt k cap j hcap hk.1 hk.2
  have h2 := hashInt64_nonneg k cap
  have hcap0 : (0 : Int) < cap := by rw [hcap]; positivity
  unfold bucketIdx
  omega

theorem upsertChainBody_capacity {A : Type} (eo : Bool) (m : ChainMap A)
    (k : Int) (v : A) : (upsertChainBody eo m k v).1.capacity = m.capacity := by
  unfold upsertChainBody
  by_cases hk : chainHasKey (m.buckets (bucketIdx k m.capacity)) k = true
  · rw [if_pos hk]
  · rw [if_neg hk]
    cases eo with
    | false => rfl
    | true => rfl

theorem chainCapShape {A : Type} (ops : List (MapOp A)) :
    ∃ j, (runMapOps ops).capacity = 16 * 2 ^ j := by
  have main : ∀ (l : List (MapOp A)) (m : ChainMap A),
      (∃ j, m.capacity = 16 * 2 ^ j) →
      ∃ j, (l.foldl applyMapOp m).capacity = 16 * 2 ^ j := by
    intro l
    induction l with
    | nil => intro m hm; exact hm
    | cons op t ih =>
      intro m hm
      apply ih
      obtain ⟨j, hj⟩ := hm
      cases op with
      | upsert k v =>
        show ∃ j2, (upsertChainMapA true true m k v).1.capacity = 16 * 2 ^ j2
        unfold upsertChainMapA
        by_cases hl : chainLoadExceeded m = true
        · rw [if_pos hl]
          simp only [if_true]
          rw [upsertChainBody_capacity]
          exact ⟨j + 1, by show m.capacity * 2 = _; rw [hj]; ring⟩
        · rw [if_neg hl]
          rw [upsertChainBody_capacity]
          exact ⟨j, hj⟩
      | remove k =>
        show ∃ j2, (removeChainMap m k).1.capacity = 16 * 2 ^ j2
        unfold removeChainMap
        by_cases hk : chainHasKey (m.buckets (bucketIdx k m.capacity)) k = true
        · rw [if_pos hk]
          exact ⟨j, hj⟩
        · rw [if_neg hk]
          exact ⟨j, hj⟩
  exact main ops createInt64Hashmap ⟨0, by rfl⟩

theorem getChainMap_resize {A : Type} (m : ChainMap A) (k : Int)
    (hc : ChainCoh m) (j : Nat) (hcap : m.capacity = 16 * 2 ^ j)
    (hk : Int64Range k) :
    getChainMap (resizeChainMap m) k = getChainMap m k := by
  unfold getChainMap
  have hcap2 : (resizeChainMap m).capacity = m.capacity * 2 := rfl
  rw [hcap2, resize_bucket]
  have hndfil : ((((allEntries m).filter
      (fun e => bucketIdx e.1 (m.capacity * 2) =
        bucketIdx k (m.capacity * 2))).reverse).map Prod.fst).Nodup := by
    have hall : ((allEntries m).map Prod.fst).Nodup := by
      unfold allEntries
      apply nodup_foldr_concat m.buckets (fun k2 => bucketIdx k2 m.capacity)
      · exact List.nodup_range _
      · intro i _; exact (hc i).2
      · intro i _ e he; exact (hc i).1 e he
    rw [List.map_reverse, List.nodup_reverse]
    exact ((List.filter_sublist _).map Prod.fst).nodup hall
  cases hlook : chainLookup (m.buckets (bucketIdx k m.capacity)) k with
  | some v =>
    have hmem : (k, v) ∈ m.buckets (bucketIdx k m.capacity) :=
      chainLookup_some_mem _ _ _ hlook
    have hlt : bucketIdx k m.capacity < m.capacity.toNat :=
      bucketIdx_lt k m.capacity j hcap hk
    have hall2 : (k, v) ∈ allEntries m := by
      unfold allEntries
      exact (mem_foldr_concat _ _ _).mpr ⟨_, List.mem_range.mpr hlt, hmem⟩
    apply chainLookup_eq_some_of_mem _ _ _ hndfil
    rw [List.mem_reverse]
    exact List.mem_filter.mpr ⟨hall2, by simp⟩
  | none =>
    apply chainLookup_none_of_not_mem
    intro hkmem
    obtain ⟨e, he, hek⟩ := List.mem_map.mp hkmem
    rw [List.mem_reverse] at he
    obtain ⟨heall, _⟩ := List.mem_filter.mp he
    obtain ⟨i, hi, hei⟩ := (mem_foldr_concat _ _ _).mp
      ((by unfold allEntries at heall; exact heall) :
        e ∈ (List.range m.capacity.toNat).foldr (fun i r => m.buckets i ++ r) [])
    have hplace : bucketIdx e.1 m.capacity = i := (hc i).1 e hei
    rw [hek] at hplace
    have hmm : e.1 ∈ List.map Prod.fst (m.buckets i) :=
      List.mem_map_of_mem Prod.fst hei
    rw [hek] at hmm
    have : (chainLookup (m.buckets (bucketIdx k m.capacity)) k).isSome = true := by
      apply chainLookup_isSome_of_mem
      rw [hplace]
      exact hmm
    rw [hlook] at this
    simp at this

theorem getChainMap_hasKey_false {A : Type} (m : ChainMap A) (k : Int)
    (h : getChainMap m k = none) :
    chainHasKey (m.buckets (bucketIdx k m.capacity)) k = false := by
  by_contra hcon
  rw [Bool.not_eq_false] at hcon
  have hmem := (chainHasKey_iff _ _).mp hcon
  have hsome := chainLookup_isSome_of_mem _ _ hmem
  unfold getChainMap at h
  rw [h] at hsome
  simp at hsome

/-- C7 (amended): what the code actually guarantees on allocation failure.
A failing growth `realloc` on a full string stack, a failing resize
`calloc` in either chaining hashmap, and a failing resize allocation in
the open-addressing set all leave the container unchanged and return
failure.  But when growth succeeds and a *later* allocation of the same
operation fails (`strdup` of the pushed string, `calloc` of the new map
entry), the operation still returns failure and the logical contents,
size and lookup results are unchanged — yet the capacity remains grown
(doubled), contradicting the claim that the container stays at its
pre-operation capacity. -/
theorem alloc_failure_amended
    (st : StringStack) (value : String)
    (mA : ChainMap Int) (ops : List (MapOp Int)) (k kq v : Int)
    (s : Int64Set) (sk : Int)
    (hst : isFullStringStack st = true)
    (hm : chainLoadExceeded mA = true)
    (habs : getChainMap (runMapOps ops) k = none)
    (hk : Int64Range k) (hkq : Int64Range kq)
    (hs : setLoadExceeded s = true) :
    pushStringStackA false false st value = (st, false) ∧
    pushStringStackA false true st value = (st, false) ∧
    ((pushStringStackA true false st value).2 = false ∧
      (pushStringStackA true false st value).1.data = st.data ∧
      (pushStringStackA true false st value).1.capacity = st.capacity * 2) ∧
    (∀ eo, upsertChainMapA false eo mA k v = (mA, false)) ∧
    ((upsertChainMapA true false (runMapOps ops) k v).2 = false ∧
      (upsertChainMapA true false (runMapOps ops) k v).1.size =
        (runMapOps ops).size ∧
      (upsertChainMapA true false (runMapOps ops) k v).1.capacity =
        (if chainLoadExceeded (runMapOps ops) then (runMapOps ops).capacity * 2
          else (runMapOps ops).capacity) ∧
      getChainMap (upsertChainMapA true false (runMapOps ops) k v).1 kq =
        getChainMap (runMapOps ops) kq) ∧
    int64SetInsertA false s sk = (s, false) := by
  refine ⟨?_, ?_, ?_, ?_, ?_, ?_⟩
  · simp [pushStringStackA, hst]
  · simp [pushStringStackA, hst]
  · refine ⟨?_, ?_, ?_⟩ <;> simp [pushStringStackA, hst, Nat.mul_comm]
  · intro eo
    simp [upsertChainMapA, hm]
  · have hcoh := chainCoh_run ops
    obtain ⟨j, hj⟩ := chainCapShape ops
    by_cases hl : chainLoadExceeded (runMapOps ops) = true
    · have hrk : getChainMap (resizeChainMap (runMapOps ops)) k = none := by
        rw [getChainMap_resize _ _ hcoh j hj hk]
        exact habs
      have hnk2 := getChainMap_hasKey_false _ _ hrk
      have he : upsertChainMapA true false (runMapOps ops) k v =
          (resizeChainMap (runMapOps ops), false) := by
        simp [upsertChainMapA, upsertChainBody, hl, hnk2]
      refine ⟨by rw [he], by rw [he]; rfl, ?_, ?_⟩
      · rw [he, if_pos hl]
        rfl
      · rw [he]
        exact getChainMap_resize _ _ hcoh j hj hkq
    · have hnk := getChainMap_hasKey_false _ _ habs
      have he : upsertChainMapA true false (runMapOps ops) k v =
          ((runMapOps ops), false) := by
        simp [upsertChainMapA, upsertChainBody, hl, hnk]
      refine ⟨by rw [he], by rw [he], ?_, by rw [he]⟩
      rw [he, if_neg hl]
  · unfold int64SetInsertA
    rw [if_pos ⟨hs, by simp⟩]

/-- C7 counterexample: pushing onto a full string stack when the growth
`realloc` succeeds but the `strdup` of the new element fails returns
failure with the stack contents intact, but the capacity has already been
doubled from 2 to 4 — the container is *not* at its pre-operation
capacity, so the operation is not all-or-nothing as claimed. -/
theorem alloc_failure_counterexample :
    (pushStringStackA true false { data := ["a", "b"], capacity := 2 } "c").2
      = false ∧
    (pushStringStackA true false { data := ["a", "b"], capacity := 2 } "c").1.data
      = ["a", "b"] ∧
    (pushStringStackA true false { data := ["a", "b"], capacity := 2 } "c").1.capacity
      = 4 ∧
    (pushStringStackA true false { data := ["a", "b"], capacity := 2 } "c").1.capacity
      ≠ 2 := by
  refine ⟨rfl, rfl, rfl, by decide⟩

theorem alloc_failure_amended_witness :
    pushStringStackA false false { data := ["a", "b"], capacity := 2 } "c" =
      ({ data := ["a", "b"], capacity := 2 }, false) ∧
    int64SetInsertA false (int64SetNew 1 (mkRat 3 4)) 0 =
      (int64SetNew 1 (mkRat 3 4), false) := by
  have h := alloc_failure_amended { data := ["a", "b"], capacity := 2 } "c"
    { capacity := 16, size := 12, buckets := fun _ => [] } [MapOp.upsert 1 100]
    2 1 5 (int64SetNew 1 (mkRat 3 4)) 0
    (by decide) (by decide) (by decide) ⟨by decide, by decide⟩
    ⟨by decide, by decide⟩ (by decide)
  exact ⟨h.1, h.2.2.2.2.2⟩

/-! ### src/int64Set.c: counting and probe-chain toolbox (toward C2, C3) -/

theorem countP_agree {α : Type} (f g : α → Bool) :
    ∀ l : List α, (∀ a ∈ l, f a = g a) → l.countP f = l.countP g := by
  intro l
  induction l with
  | nil => intro _; rfl
  | cons a t ih =>
    intro h
    rw [List.countP_cons, List.countP_cons, ih (fun b hb => h b (List.mem_cons_of_mem a hb)),
      h a (List.mem_cons_self a t)]

theorem countP_setSlot (Q : HashSlot → Bool) (f : Nat → HashSlot) (p0 : Nat)
    (v : HashSlot) :
    ∀ l : List Nat, l.Nodup → p0 ∈ l →
    (l.countP fun q => Q (setSlot f p0 v q)) + (if Q (f p0) then 1 else 0) =
      (l.countP fun q => Q (f q)) + (if Q v then 1 else 0) := by
  intro l
  induction l with
  | nil => intro _ h; simp at h
  | cons a t ih =>
    intro hnd hmem
    rw [List.countP_cons, List.countP_cons]
    by_cases ha : a = p0
    · subst ha
      have hnt : a ∉ t := (List.nodup_cons.mp hnd).1
      have ht : (t.countP fun q => Q (setSlot f a v q)) =
          t.countP fun q => Q (f q) := by
        apply countP_agree
        intro b hb
        have hba : b ≠ a := fun hh => hnt (hh ▸ hb)
        unfold setSlot
        rw [if_neg hba]
      rw [ht]
      unfold setSlot
      rw [if_pos rfl]
      omega
    · have hpt : p0 ∈ t := by
        rcases List.mem_cons.mp hmem with h1 | h1
        · exact absurd h1.symm ha
        · exact h1
      have ha2 : setSlot f p0 v a = f a := by
        unfold setSlot
        rw [if_neg ha]
      rw [ha2]
      have := ih (List.nodup_cons.mp hnd).2 hpt
      omega

theorem occF_setSlot (f : Nat → HashSlot) (p0 : Nat) (v : HashSlot)
    (cap : Nat) (hp : p0 < cap) :
    occF (setSlot f p0 v) cap + (if (f p0).state = .OCCUPIED then 1 else 0) =
      occF f cap + (if v.state = .OCCUPIED then 1 else 0) := by
  have h := countP_setSlot (fun h => h.state = .OCCUPIED) f p0 v
    (List.range cap) (List.nodup_range _) (List.mem_range.mpr hp)
  unfold occF
  simpa using h

theorem occKeyF_setSlot (f : Nat → HashSlot) (p0 : Nat) (v : HashSlot)
    (cap : Nat) (hp : p0 < cap) (key : Int) :
    occKeyF (setSlot f p0 v) cap key +
        (if (f p0).state = .OCCUPIED ∧ (f p0).key = key then 1 else 0) =
      occKeyF f cap key + (if v.state = .OCCUPIED ∧ v.key = key then 1 else 0) := by
  have h := countP_setSlot
    (fun h => h.state = .OCCUPIED ∧ h.key = key) f p0 v
    (List.range cap) (List.nodup_range _) (List.mem_range.mpr hp)
  unfold occKeyF
  simpa using h

theorem occCount_eq_occF (s : Int64Set) : occCount s = occF s.slots s.capacity := rfl

theorem occKeyCount_eq_occKeyF (s : Int64Set) (key : Int) :
    occKeyCount s key = occKeyF s.slots s.capacity key := rfl

theorem exists_nonOcc_of_occF_lt (f : Nat → HashSlot) (cap : Nat)
    (h : occF f cap < cap) : ∃ q < cap, (f q).state ≠ .OCCUPIED := by
  by_contra hcon
  push_neg at hcon
  have h2 : occF f cap = (List.range cap).length := by
    unfold occF
    rw [List.countP_eq_length]
    intro a ha
    simp only [decide_eq_true_eq]
    exact hcon a (List.mem_range.mp ha)
  rw [List.length_range] at h2
  omega

theorem occKeyF_pos_of_insChainF (f : Nat → HashSlot) (cap : Nat) (key : Int)
    (h : InsChainF f cap key) : 1 ≤ occKeyF f cap key := by
  obtain ⟨j, hj, hocc, hkey, _⟩ := h
  have hcap : 0 < cap := by omega
  have hpos : (int64Hash key % cap + j) % cap < cap := Nat.mod_lt _ hcap
  unfold occKeyF
  exact List.countP_pos_iff.mpr
    ⟨(int64Hash key % cap + j) % cap, List.mem_range.mpr hpos,
      by simp only [decide_eq_true_eq]; exact ⟨hocc, hkey⟩⟩

theorem keyChainF_of_insChainF (f : Nat → HashSlot) (cap : Nat) (key : Int)
    (h : InsChainF f cap key) : KeyChainF f cap key := by
  obtain ⟨j, hj, hocc, hkey, hpre⟩ := h
  refine ⟨j, hj, hocc, hkey, fun j2 hj2 => ?_⟩
  rw [hpre j2 hj2]
  intro hh
  cases hh

theorem insChainF_setSlot_nonOcc (f : Nat → HashSlot) (cap : Nat) (key : Int)
    (p : Nat) (k2 : Int) (h : InsChainF f cap key)
    (hp : (f p).state ≠ .OCCUPIED) :
    InsChainF (setSlot f p { key := k2, state := .OCCUPIED }) cap key := by
  obtain ⟨j, hj, hocc, hkey, hpre⟩ := h
  have hne : ∀ j2, (f ((int64Hash key % cap + j2) % cap)).state = .OCCUPIED →
      (int64Hash key % cap + j2) % cap ≠ p :=
    fun j2 h2 hh => hp (hh ▸ h2)
  refine ⟨j, hj, ?_, ?_, fun j2 hj2 => ?_⟩
  · unfold setSlot
    rw [if_neg (hne j hocc)]
    exact hocc
  · unfold setSlot
    rw [if_neg (hne j hocc)]
    exact hkey
  · unfold setSlot
    rw [if_neg (hne j2 (hpre j2 hj2))]
    exact hpre j2 hj2

theorem keyChainF_setSlot_nonOcc (f : Nat → HashSlot) (cap : Nat) (key : Int)
    (p : Nat) (v : HashSlot) (h : KeyChainF f cap key)
    (hp : (f p).state ≠ .OCCUPIED) (hv : v.state ≠ .EMPTY) :
    KeyChainF (setSlot f p v) cap key := by
  obtain ⟨j, hj, hocc, hkey, hpre⟩ := h
  have hne : (int64Hash key % cap + j) % cap ≠ p :=
    fun hh => hp (hh ▸ hocc)
  refine ⟨j, hj, ?_, ?_, fun j2 hj2 => ?_⟩
  · unfold setSlot
    rw [if_neg hne]
    exact hocc
  · unfold setSlot
    rw [if_neg hne]
    exact hkey
  · unfold setSlot
    by_cases hh : (int64Hash key % cap + j2) % cap = p
    · rw [if_pos hh]
      exact hv
    · rw [if_neg hh]
      exact hpre j2 hj2

theorem keyChainF_setSlot_otherKey (f : Nat → HashSlot) (cap : Nat) (key : Int)
    (p : Nat) (v : HashSlot) (h : KeyChainF f cap key)
    (hp : (f p).key ≠ key) (hv : v.state ≠ .EMPTY) :
    KeyChainF (setSlot f p v) cap key := by
  obtain ⟨j, hj, hocc, hkey, hpre⟩ := h
  have hne : (int64Hash key % cap + j) % cap ≠ p :=
    fun hh => hp (hh ▸ hkey)
  refine ⟨j, hj, ?_, ?_, fun j2 hj2 => ?_⟩
  · unfold setSlot
    rw [if_neg hne]
    exact hocc
  · unfold setSlot
    rw [if_neg hne]
    exact hkey
  · unfold setSlot
    by_cases hh : (int64Hash key % cap + j2) % cap = p
    · rw [if_pos hh]
      exact hv
    · rw [if_neg hh]
      exact hpre j2 hj2

theorem exists_probe_offset (index q cap : Nat) (h0 : 0 < cap) (hq : q < cap) :
    ∃ j < cap, (index + j) % cap = q := by
  refine ⟨(cap + q - index % cap) % cap, Nat.mod_lt _ h0, ?_⟩
  have hle : index % cap < cap := Nat.mod_lt _ h0
  have e : index + (cap + q - index % cap) = cap * (index / cap) + (cap + q) := by
    have h2 := Nat.div_add_mod index cap
    omega
  rw [Nat.add_mod_mod, e, Nat.mul_add_mod, Nat.add_mod_left, Nat.mod_eq_of_lt hq]

theorem insProbeAux_skip (slots : Nat → HashSlot) (cap : Nat) (key : Int)
    (index : Nat) :
    ∀ (j n i : Nat), j ≤ n →
    (∀ j2, j2 < j → (slots ((index + (i + j2)) % cap)).state = .OCCUPIED ∧
      ¬ (slots ((index + (i + j2)) % cap)).key = key) →
    insProbeAux slots cap key index n i =
      insProbeAux slots cap key index (n - j) (i + j) := by
  intro j
  induction j with
  | zero => intro n i _ _; simp
  | succ j ih =>
    intro n i hjn hpre
    obtain ⟨m, rfl⟩ : ∃ m, n = m + 1 := ⟨n - 1, by omega⟩
    have h0 := hpre 0 (by omega)
    rw [Nat.add_zero] at h0
    have hstep : insProbeAux slots cap key index (m + 1) i =
        insProbeAux slots cap key index m (i + 1) := by
      simp only [insProbeAux]
      rw [if_neg (not_not_intro h0.1), if_neg h0.2]
    have e2 : m + 1 - (j + 1) = m - j := by omega
    have e3 : i + (j + 1) = i + 1 + j := by omega
    rw [hstep, e2, e3]
    apply ih m (i + 1) (by omega)
    intro j2 hj2
    have e4 : i + 1 + j2 = i + (j2 + 1) := by omega
    rw [e4]
    exact hpre (j2 + 1) (by omega)

theorem remProbeAux_skip (slots : Nat → HashSlot) (cap : Nat) (key : Int)
    (index : Nat) :
    ∀ (j n i : Nat), j ≤ n →
    (∀ j2, j2 < j → ¬ (slots ((index + (i + j2)) % cap)).state = .EMPTY ∧
      ¬ ((slots ((index + (i + j2)) % cap)).state = .OCCUPIED ∧
         (slots ((index + (i + j2)) % cap)).key = key)) →
    remProbeAux slots cap key index n i =
      remProbeAux slots cap key index (n - j) (i + j) := by
  intro j
  induction j with
  | zero => intro n i _ _; simp
  | succ j ih =>
    intro n i hjn hpre
    obtain ⟨m, rfl⟩ : ∃ m, n = m + 1 := ⟨n - 1, by omega⟩
    have h0 := hpre 0 (by omega)
    rw [Nat.add_zero] at h0
    have hstep : remProbeAux slots cap key index (m + 1) i =
        remProbeAux slots cap key index m (i + 1) := by
      simp only [remProbeAux]
      rw [if_neg h0.1, if_neg h0.2]
    have e2 : m + 1 - (j + 1) = m - j := by omega
    have e3 : i + (j + 1) = i + 1 + j := by omega
    rw [hstep, e2, e3]
    apply ih m (i + 1) (by omega)
    intro j2 hj2
    have e4 : i + 1 + j2 = i + (j2 + 1) := by omega
    rw [e4]
    exact hpre (j2 + 1) (by omega)

theorem containsAux_skip (slots : Nat → HashSlot) (cap : Nat) (key : Int)
    (index : Nat) :
    ∀ (j n i : Nat), j ≤ n →
    (∀ j2, j2 < j → ¬ (slots ((index + (i + j2)) % cap)).state = .EMPTY ∧
      ¬ ((slots ((index + (i + j2)) % cap)).state = .OCCUPIED ∧
         (slots ((index + (i + j2)) % cap)).key = key)) →
    containsAux slots cap key index n i =
      containsAux slots cap key index (n - j) (i + j) := by
  intro j
  induction j with
  | zero => intro n i _ _; simp
  | succ j ih =>
    intro n i hjn hpre
    obtain ⟨m, rfl⟩ : ∃ m, n = m + 1 := ⟨n - 1, by omega⟩
    have h0 := hpre 0 (by omega)
    rw [Nat.add_zero] at h0
    have hstep : containsAux slots cap key index (m + 1) i =
        containsAux slots cap key index m (i + 1) := by
      simp only [containsAux]
      rw [if_neg h0.1, if_neg h0.2]
    have e2 : m + 1 - (j + 1) = m - j := by omega
    have e3 : i + (j + 1) = i + 1 + j := by omega
    rw [hstep, e2, e3]
    apply ih m (i + 1) (by omega)
    intro j2 hj2
    have e4 : i + 1 + j2 = i + (j2 + 1) := by omega
    rw [e4]
    exact hpre (j2 + 1) (by omega)

theorem placeProbeAux_skip (slots : Nat → HashSlot) (cap : Nat) (index : Nat) :
    ∀ (j n i : Nat), j ≤ n →
    (∀ j2, j2 < j → (slots ((index + (i + j2)) % cap)).state = .OCCUPIED) →
    placeProbeAux slots cap index n i =
      placeProbeAux slots cap index (n - j) (i + j) := by
  intro j
  induction j with
  | zero => intro n i _ _; simp
  | succ j ih =>
    intro n i hjn hpre
    obtain ⟨m, rfl⟩ : ∃ m, n = m + 1 := ⟨n - 1, by omega⟩
    have h0 := hpre 0 (by omega)
    rw [Nat.add_zero] at h0
    have hstep : placeProbeAux slots cap index (m + 1) i =
        placeProbeAux slots cap index m (i + 1) := by
      simp only [placeProbeAux]
      rw [if_neg (not_not_intro h0)]
    have e2 : m + 1 - (j + 1) = m - j := by omega
    have e3 : i + (j + 1) = i + 1 + j := by omega
    rw [hstep, e2, e3]
    apply ih m (i + 1) (by omega)
    intro j2 hj2
    have e4 : i + 1 + j2 = i + (j2 + 1) := by omega
    rw [e4]
    exact hpre (j2 + 1) (by omega)

theorem insProbeAux_present_of_chain (slots : Nat → HashSlot) (cap : Nat)
    (key : Int) (h : InsChainF slots cap key) :
    insProbeAux slots cap key (int64Hash key % cap) cap 0 = .present := by
  obtain ⟨js, hjs, hocc, hkey, hpre⟩ := h
  have hex : ∃ j, (slots ((int64Hash key % cap + j) % cap)).state ≠ .OCCUPIED ∨
      (slots ((int64Hash key % cap + j) % cap)).key = key := ⟨js, Or.inr hkey⟩
  have hmle : Nat.find hex ≤ js := Nat.find_min' hex (Or.inr hkey)
  have hm := Nat.find_spec hex
  have hmocc : (slots ((int64Hash key % cap + Nat.find hex) % cap)).state
      = .OCCUPIED := by
    rcases Nat.lt_or_ge (Nat.find hex) js with hlt | hge
    · exact hpre _ hlt
    · have he : Nat.find hex = js := by omega
      rw [he]
      exact hocc
  have hmkey : (slots ((int64Hash key % cap + Nat.find hex) % cap)).key = key := by
    rcases hm with h1 | h1
    · exact absurd hmocc h1
    · exact h1
  have hskip := insProbeAux_skip slots cap key (int64Hash key % cap)
    (Nat.find hex) cap 0 (by omega)
    (fun j2 hj2 => by
      have hn := Nat.find_min hex hj2
      push_neg at hn
      rw [Nat.zero_add]
      exact hn)
  rw [hskip, Nat.zero_add]
  obtain ⟨m, hm2⟩ : ∃ m, cap - Nat.find hex = m + 1 :=
    ⟨cap - Nat.find hex - 1, by omega⟩
  rw [hm2]
  simp only [insProbeAux]
  rw [if_neg (not_not_intro hmocc), if_pos hmkey]

theorem insProbeAux_occupy_of (slots : Nat → HashSlot) (cap : Nat) (key : Int)
    (h0 : 0 < cap)
    (hnok : ∀ q, q < cap → ¬ ((slots q).state = .OCCUPIED ∧ (slots q).key = key))
    (hfree : ∃ q, q < cap ∧ (slots q).state ≠ .OCCUPIED) :
    ∃ j < cap, insProbeAux slots cap key (int64Hash key % cap) cap 0 =
        .occupy ((int64Hash key % cap + j) % cap) ∧
      (slots ((int64Hash key % cap + j) % cap)).state ≠ .OCCUPIED ∧
      ∀ j2 < j, (slots ((int64Hash key % cap + j2) % cap)).state = .OCCUPIED := by
  obtain ⟨q, hq, hqs⟩ := hfree
  obtain ⟨jf, hjf, hjq⟩ := exists_probe_offset (int64Hash key % cap) q cap h0 hq
  have hex : ∃ j, (slots ((int64Hash key % cap + j) % cap)).state ≠ .OCCUPIED :=
    ⟨jf, by rw [hjq]; exact hqs⟩
  have hmle : Nat.find hex ≤ jf := Nat.find_min' hex (by rw [hjq]; exact hqs)
  have hm := Nat.find_spec hex
  have hpref : ∀ j2, j2 < Nat.find hex →
      (slots ((int64Hash key % cap + j2) % cap)).state = .OCCUPIED :=
    fun j2 hj2 => not_not.mp (Nat.find_min hex hj2)
  refine ⟨Nat.find hex, by omega, ?_, hm, hpref⟩
  have hskip := insProbeAux_skip slots cap key (int64Hash key % cap)
    (Nat.find hex) cap 0 (by omega)
    (fun j2 hj2 => by
      rw [Nat.zero_add]
      refine ⟨hpref j2 hj2, fun hk => ?_⟩
      exact hnok _ (Nat.mod_lt _ h0) ⟨hpref j2 hj2, hk⟩)
  rw [hskip, Nat.zero_add]
  obtain ⟨m, hm2⟩ : ∃ m, cap - Nat.find hex = m + 1 :=
    ⟨cap - Nat.find hex - 1, by omega⟩
  rw [hm2]
  simp only [insProbeAux]
  rw [if_pos hm]

theorem insProbeAux_occupy_lt (slots : Nat → HashSlot) (cap : Nat) (key : Int)
    (index : Nat) (h0 : 0 < cap) :
    ∀ n i p, insProbeAux slots cap key index n i = .occupy p →
      p < cap ∧ (slots p).state ≠ .OCCUPIED := by
  intro n
  induction n with
  | zero => intro i p h; simp [insProbeAux] at h
  | succ m ih =>
    intro i p h
    simp only [insProbeAux] at h
    by_cases h1 : (slots ((index + i) % cap)).state ≠ .OCCUPIED
    · rw [if_pos h1] at h
      injection h with h2
      rw [← h2]
      exact ⟨Nat.mod_lt _ h0, h1⟩
    · rw [if_neg h1] at h
      by_cases h2 : (slots ((index + i) % cap)).key = key
      · rw [if_pos h2] at h
        cases h
      · rw [if_neg h2] at h
        exact ih (i + 1) p h

theorem remProbeAux_some_spec (slots : Nat → HashSlot) (cap : Nat) (key : Int)
    (index : Nat) (h0 : 0 < cap) :
    ∀ n i p, remProbeAux slots cap key index n i = some p →
      p < cap ∧ (slots p).state = .OCCUPIED ∧ (slots p).key = key := by
  intro n
  induction n with
  | zero => intro i p h; simp [remProbeAux] at h
  | succ m ih =>
    intro i p h
    simp only [remProbeAux] at h
    by_cases h1 : (slots ((index + i) % cap)).state = .EMPTY
    · rw [if_pos h1] at h
      cases h
    · rw [if_neg h1] at h
      by_cases h2 : (slots ((index + i) % cap)).state = .OCCUPIED ∧
          (slots ((index + i) % cap)).key = key
      · rw [if_pos h2] at h
        injection h with h3
        rw [← h3]
        exact ⟨Nat.mod_lt _ h0, h2⟩
      · rw [if_neg h2] at h
        exact ih (i + 1) p h

theorem remProbeAux_found_of_chain (slots : Nat → HashSlot) (cap : Nat)
    (key : Int) (h : InsChainF slots cap key) :
    ∃ j < cap, remProbeAux slots cap key (int64Hash key % cap) cap 0 =
        some ((int64Hash key % cap + j) % cap) ∧
      (slots ((int64Hash key % cap + j) % cap)).state = .OCCUPIED ∧
      (slots ((int64Hash key % cap + j) % cap)).key = key ∧
      ∀ j2 < j, (slots ((int64Hash key % cap + j2) % cap)).state = .OCCUPIED ∧
        ¬ (slots ((int64Hash key % cap + j2) % cap)).key = key := by
  obtain ⟨js, hjs, hocc, hkey, hpre⟩ := h
  have hex : ∃ j, (slots ((int64Hash key % cap + j) % cap)).state = .EMPTY ∨
      ((slots ((int64Hash key % cap + j) % cap)).state = .OCCUPIED ∧
       (slots ((int64Hash key % cap + j) % cap)).key = key) :=
    ⟨js, Or.inr ⟨hocc, hkey⟩⟩
  have hmle : Nat.find hex ≤ js := Nat.find_min' hex (Or.inr ⟨hocc, hkey⟩)
  have hm := Nat.find_spec hex
  have hmocc : (slots ((int64Hash key % cap + Nat.find hex) % cap)).state
      = .OCCUPIED := by
    rcases Nat.lt_or_ge (Nat.find hex) js with hlt | hge
    · exact hpre _ hlt
    · have he : Nat.find hex = js := by omega
      rw [he]
      exact hocc
  have hmkey : (slots ((int64Hash key % cap + Nat.find hex) % cap)).key = key := by
    rcases hm with h1 | h1
    · rw [hmocc] at h1
      cases h1
    · exact h1.2
  have hpref : ∀ j2, j2 < Nat.find hex →
      (slots ((int64Hash key % cap + j2) % cap)).state = .OCCUPIED ∧
      ¬ (slots ((int64Hash key % cap + j2) % cap)).key = key := by
    intro j2 hj2
    have hn := Nat.find_min hex hj2
    push_neg at hn
    have ho : (slots ((int64Hash key % cap + j2) % cap)).state = .OCCUPIED :=
      hpre j2 (by omega)
    exact ⟨ho, hn.2 ho⟩
  refine ⟨Nat.find hex, by omega, ?_, hmocc, hmkey, hpref⟩
  have hskip := remProbeAux_skip slots cap key (int64Hash key % cap)
    (Nat.find hex) cap 0 (by omega)
    (fun j2 hj2 => by
      rw [Nat.zero_add]
      have hp := hpref j2 hj2
      refine ⟨fun hh => ?_, fun hh => hp.2 hh.2⟩
      rw [hp.1] at hh
      cases hh)
  rw [hskip, Nat.zero_add]
  obtain ⟨m, hm2⟩ : ∃ m, cap - Nat.find hex = m + 1 :=
    ⟨cap - Nat.find hex - 1, by omega⟩
  rw [hm2]
  simp only [remProbeAux]
  rw [if_neg (fun hh => by rw [hmocc] at hh; cases hh), if_pos ⟨hmocc, hmkey⟩]

theorem containsAux_true_of_chain (slots : Nat → HashSlot) (cap : Nat)
    (key : Int) (h : KeyChainF slots cap key) :
    containsAux slots cap key (int64Hash key % cap) cap 0 = true := by
  obtain ⟨js, hjs, hocc, hkey, hpre⟩ := h
  have hex : ∃ j, (slots ((int64Hash key % cap + j) % cap)).state = .EMPTY ∨
      ((slots ((int64Hash key % cap + j) % cap)).state = .OCCUPIED ∧
       (slots ((int64Hash key % cap + j) % cap)).key = key) :=
    ⟨js, Or.inr ⟨hocc, hkey⟩⟩
  have hmle : Nat.find hex ≤ js := Nat.find_min' hex (Or.inr ⟨hocc, hkey⟩)
  have hm := Nat.find_spec hex
  have hmne : (slots ((int64Hash key % cap + Nat.find hex) % cap)).state
      ≠ .EMPTY := by
    rcases Nat.lt_or_ge (Nat.find hex) js with hlt | hge
    · exact hpre _ hlt
    · have he : Nat.find hex = js := by omega
      rw [he, hocc]
      intro hh
      cases hh
  have hmstop : (slots ((int64Hash key % cap + Nat.find hex) % cap)).state
      = .OCCUPIED ∧ (slots ((int64Hash key % cap + Nat.find hex) % cap)).key
        = key := by
    rcases hm with h1 | h1
    · exact absurd h1 hmne
    · exact h1
  have hskip := containsAux_skip slots cap key (int64Hash key % cap)
    (Nat.find hex) cap 0 (by omega)
    (fun j2 hj2 => by
      have hn := Nat.find_min hex hj2
      push_neg at hn
      rw [Nat.zero_add]
      exact ⟨hn.1, fun hh => hn.2 hh.1 hh.2⟩)
  rw [hskip, Nat.zero_add]
  obtain ⟨m, hm2⟩ : ∃ m, cap - Nat.find hex = m + 1 :=
    ⟨cap - Nat.find hex - 1, by omega⟩
  rw [hm2]
  simp only [containsAux]
  rw [if_neg hmne, if_pos hmstop]

theorem placeProbeAux_some_of (slots : Nat → HashSlot) (cap : Nat)
    (index : Nat) (h0 : 0 < cap) (hfree : occF slots cap < cap) :
    ∃ j < cap, placeProbeAux slots cap index cap 0 =
        some ((index + j) % cap) ∧
      (slots ((index + j) % cap)).state ≠ .OCCUPIED ∧
      ∀ j2 < j, (slots ((index + j2) % cap)).state = .OCCUPIED := by
  obtain ⟨q, hq, hqs⟩ := exists_nonOcc_of_occF_lt slots cap hfree
  obtain ⟨jf, hjf, hjq⟩ := exists_probe_offset index q cap h0 hq
  have hex : ∃ j, (slots ((index + j) % cap)).state ≠ .OCCUPIED :=
    ⟨jf, by rw [hjq]; exact hqs⟩
  have hmle : Nat.find hex ≤ jf := Nat.find_min' hex (by rw [hjq]; exact hqs)
  have hm := Nat.find_spec hex
  have hpref : ∀ j2, j2 < Nat.find hex →
      (slots ((index + j2) % cap)).state = .OCCUPIED :=
    fun j2 hj2 => not_not.mp (Nat.find_min hex hj2)
  refine ⟨Nat.find hex, by omega, ?_, hm, hpref⟩
  have hskip := placeProbeAux_skip slots cap index (Nat.find hex) cap 0
    (by omega)
    (fun j2 hj2 => by
      rw [Nat.zero_add]
      exact hpref j2 hj2)
  rw [hskip, Nat.zero_add]
  obtain ⟨m, hm2⟩ : ∃ m, cap - Nat.find hex = m + 1 :=
    ⟨cap - Nat.find hex - 1, by omega⟩
  rw [hm2]
  simp only [placeProbeAux]
  rw [if_pos hm]

theorem rehashFold_spec (newCap : Nat) (h0 : 0 < newCap) (f : Nat → HashSlot) :
    ∀ (l : List Nat) (acc : Nat → HashSlot),
    occF acc newCap + (l.countP fun i => (f i).state = .OCCUPIED) ≤ newCap - 1 →
    occF (rehashFold newCap f l acc) newCap =
      occF acc newCap + (l.countP fun i => (f i).state = .OCCUPIED) ∧
    (∀ κ : Int, occKeyF (rehashFold newCap f l acc) newCap κ =
      occKeyF acc newCap κ +
        (l.countP fun i => (f i).state = .OCCUPIED ∧ (f i).key = κ)) ∧
    (∀ κ : Int, InsChainF acc newCap κ →
      InsChainF (rehashFold newCap f l acc) newCap κ) ∧
    (∀ i ∈ l, (f i).state = .OCCUPIED →
      InsChainF (rehashFold newCap f l acc) newCap ((f i).key)) ∧
    (NoTombF acc newCap → NoTombF (rehashFold newCap f l acc) newCap) := by
  intro l
  induction l with
  | nil =>
    intro acc _
    refine ⟨by simp [rehashFold], fun κ => by simp [rehashFold],
      fun κ h => by simpa [rehashFold] using h, by simp,
      fun h => by simpa [rehashFold] using h⟩
  | cons i t ih =>
    intro acc hroom
    by_cases hocc : (f i).state = .OCCUPIED
    · have hcnt : ((i :: t).countP fun i => (f i).state = .OCCUPIED) =
          (t.countP fun i => (f i).state = .OCCUPIED) + 1 := by
        rw [List.countP_cons]
        simp [hocc]
      rw [hcnt] at hroom
      have hlt : occF acc newCap < newCap := by omega
      obtain ⟨j, hj, heq, hfree, hpre⟩ :=
        placeProbeAux_some_of acc newCap (int64Hash (f i).key % newCap) h0 hlt
      have hrk : rehashKey newCap acc (f i).key =
          setSlot acc ((int64Hash (f i).key % newCap + j) % newCap)
            { key := (f i).key, state := .OCCUPIED } := by
        unfold rehashKey
        rw [heq]
      have hplt : (int64Hash (f i).key % newCap + j) % newCap < newCap :=
        Nat.mod_lt _ h0
      have hfold : rehashFold newCap f (i :: t) acc =
          rehashFold newCap f t (rehashKey newCap acc (f i).key) := by
        simp only [rehashFold, List.foldl_cons]
        rw [if_pos hocc]
      have hocc2 : occF (rehashKey newCap acc (f i).key) newCap =
          occF acc newCap + 1 := by
        rw [hrk]
        have h2 := occF_setSlot acc ((int64Hash (f i).key % newCap + j) % newCap)
          { key := (f i).key, state := .OCCUPIED } newCap hplt
        rw [if_neg hfree] at h2
        rw [if_pos (show ({ key := (f i).key, state := .OCCUPIED } :
          HashSlot).state = .OCCUPIED from rfl)] at h2
        omega
      have hkey2 : ∀ κ : Int, occKeyF (rehashKey newCap acc (f i).key) newCap κ =
          occKeyF acc newCap κ + (if (f i).key = κ then 1 else 0) := by
        intro κ
        rw [hrk]
        have := occKeyF_setSlot acc ((int64Hash (f i).key % newCap + j) % newCap)
          { key := (f i).key, state := .OCCUPIED } newCap hplt κ
        rw [if_neg (fun hh => hfree hh.1)] at this
        by_cases hk : (f i).key = κ
        · rw [if_pos ⟨rfl, hk⟩] at this
          rw [if_pos hk]
          omega
        · rw [if_neg (fun hh => hk hh.2)] at this
          rw [if_neg hk]
          omega
      have hchain2 : InsChainF (rehashKey newCap acc (f i).key) newCap
          ((f i).key) := by
        rw [hrk]
        refine ⟨j, hj, ?_, ?_, fun j2 hj2 => ?_⟩
        · unfold setSlot
          rw [if_pos rfl]
        · unfold setSlot
          rw [if_pos rfl]
        · unfold setSlot
          have hne2 : (int64Hash (f i).key % newCap + j2) % newCap ≠
              (int64Hash (f i).key % newCap + j) % newCap := by
            intro hh
            exact hfree (hh ▸ hpre j2 hj2)
          rw [if_neg hne2]
          exact hpre j2 hj2
      have hmono2 : ∀ κ : Int, InsChainF acc newCap κ →
          InsChainF (rehashKey newCap acc (f i).key) newCap κ := by
        intro κ hκ
        rw [hrk]
        exact insChainF_setSlot_nonOcc acc newCap κ _ _ hκ hfree
      have htomb2 : NoTombF acc newCap →
          NoTombF (rehashKey newCap acc (f i).key) newCap := by
        intro ht p hp
        rw [hrk]
        unfold setSlot
        by_cases hh : p = (int64Hash (f i).key % newCap + j) % newCap
        · rw [if_pos hh]
          intro hd
          cases hd
        · rw [if_neg hh]
          exact ht p hp
      have hih := ih (rehashKey newCap acc (f i).key) (by omega)
      obtain ⟨ih1, ih2, ih3, ih4, ih5⟩ := hih
      rw [hfold, hcnt]
      refine ⟨by omega, fun κ => ?_, fun κ hκ => ih3 κ (hmono2 κ hκ), ?_, ?_⟩
      · rw [ih2 κ, hkey2 κ, List.countP_cons]
        have e1 : (if true = true then 1 else 0) = 1 := rfl
        have e2 : (if false = true then 1 else 0) = 0 := rfl
        by_cases hk : (f i).key = κ
        · have hd : (decide ((f i).state = .OCCUPIED ∧ (f i).key = κ)) = true := by
            simp [hocc, hk]
          rw [hd, if_pos hk, e1]
          omega
        · have hd : (decide ((f i).state = .OCCUPIED ∧ (f i).key = κ)) = false := by
            simp only [decide_eq_false_iff_not]
            intro hh
            exact hk hh.2
          rw [hd, if_neg hk, e2]
          omega
      · intro i2 hi2 hiocc
        rcases List.mem_cons.mp hi2 with h1 | h1
        · rw [h1]
          exact ih3 _ (hchain2)
        · exact ih4 i2 h1 hiocc
      · intro ht
        exact ih5 (htomb2 ht)
    · have hcnt : ((i :: t).countP fun i => (f i).state = .OCCUPIED) =
          (t.countP fun i => (f i).state = .OCCUPIED) := by
        rw [List.countP_cons]
        simp [hocc]
      rw [hcnt] at hroom
      have hfold : rehashFold newCap f (i :: t) acc =
          rehashFold newCap f t acc := by
        simp only [rehashFold, List.foldl_cons]
        rw [if_neg hocc]
      obtain ⟨ih1, ih2, ih3, ih4, ih5⟩ := ih acc hroom
      rw [hfold, hcnt]
      refine ⟨ih1, fun κ => ?_, ih3, ?_, ih5⟩
      · rw [ih2 κ, List.countP_cons]
        have hd : (decide ((f i).state = .OCCUPIED ∧ (f i).key = κ)) = false := by
          simp only [decide_eq_false_iff_not]
          intro hh
          exact hocc hh.1
        rw [hd]
        simp
      · intro i2 hi2 hiocc
        rcases List.mem_cons.mp hi2 with h1 | h1
        · rw [h1] at hiocc
          exact absurd hiocc hocc
        · exact ih4 i2 h1 hiocc

theorem int64SetResize_spec (s : Int64Set) (newCap : Nat) (h0 : 0 < newCap)
    (hroom : occCount s < newCap) :
    (int64SetResize s newCap).capacity = newCap ∧
    (int64SetResize s newCap).size = s.size ∧
    (int64SetResize s newCap).loadFactor = s.loadFactor ∧
    occCount (int64SetResize s newCap) = occCount s ∧
    (∀ κ : Int, occKeyCount (int64SetResize s newCap) κ = occKeyCount s κ) ∧
    (∀ κ : Int, 1 ≤ occKeyCount s κ → InsChain (int64SetResize s newCap) κ) ∧
    NoTomb (int64SetResize s newCap) := by
  have hslots : (int64SetResize s newCap).slots =
      rehashFold newCap s.slots (List.range s.capacity)
        (fun _ => { key := 0, state := .EMPTY }) := rfl
  have hocc0 : occF (fun _ => ({ key := 0, state := .EMPTY } : HashSlot))
      newCap = 0 := by
    unfold occF
    rw [List.countP_eq_zero]
    intro a _
    simp
  have hkey0 : ∀ κ : Int, occKeyF
      (fun _ => ({ key := 0, state := .EMPTY } : HashSlot)) newCap κ = 0 := by
    intro κ
    unfold occKeyF
    rw [List.countP_eq_zero]
    intro a _
    simp
  have hcnt : ((List.range s.capacity).countP
      fun i => (s.slots i).state = .OCCUPIED) = occCount s := rfl
  have hfold := rehashFold_spec newCap h0 s.slots (List.range s.capacity)
    (fun _ => { key := 0, state := .EMPTY }) (by rw [hocc0, hcnt]; omega)
  obtain ⟨hf1, hf2, _, hf4, hf5⟩ := hfold
  refine ⟨rfl, rfl, rfl, ?_, ?_, ?_, ?_⟩
  · show occF (int64SetResize s newCap).slots newCap = occCount s
    rw [hslots, hf1, hocc0, hcnt]
    omega
  · intro κ
    show occKeyF (int64SetResize s newCap).slots newCap κ = occKeyCount s κ
    rw [hslots, hf2 κ, hkey0 κ]
    have : ((List.range s.capacity).countP
        fun i => (s.slots i).state = .OCCUPIED ∧ (s.slots i).key = κ) =
        occKeyCount s κ := rfl
    rw [this]
    omega
  · intro κ hκ
    have hex : ∃ i ∈ List.range s.capacity,
        (decide ((s.slots i).state = .OCCUPIED ∧ (s.slots i).key = κ)) = true := by
      apply List.countP_pos_iff.mp
      have : ((List.range s.capacity).countP
          fun i => (s.slots i).state = .OCCUPIED ∧ (s.slots i).key = κ) =
          occKeyCount s κ := rfl
      rw [this]
      omega
    obtain ⟨i, hi, hdec⟩ := hex
    rw [decide_eq_true_eq] at hdec
    show InsChainF (int64SetResize s newCap).slots newCap κ
    rw [hslots, ← hdec.2]
    exact hf4 i hi hdec.1
  · show NoTombF (int64SetResize s newCap).slots newCap
    rw [hslots]
    apply hf5
    intro p _
    simp

theorem size_lt_of_not_exceeded (s : Int64Set) (hwf : SetWF s)
    (h : setLoadExceeded s = false) : s.size < s.capacity := by
  obtain ⟨hcap1, hsz, hszle, hnum, hden⟩ := hwf
  unfold setLoadExceeded at h
  rw [decide_eq_false_iff_not, not_lt] at h
  by_contra hge
  push_neg at hge
  have hcast : (s.capacity : Int) ≤ (s.size : Int) := by exact_mod_cast hge
  have h1 : ((s.capacity : Int) + 1) * (s.loadFactor.den : Int) ≤
      ((s.size : Int) + 1) * (s.loadFactor.den : Int) := by
    apply mul_le_mul_of_nonneg_right (by omega) (by positivity)
  have h2 : s.loadFactor.num * (s.capacity : Int) ≤
      ((s.loadFactor.den : Int) - 1) * (s.capacity : Int) := by
    apply mul_le_mul_of_nonneg_right (by omega) (by positivity)
  have hchain := le_trans h1 (le_trans h h2)
  have hcap0 : (1 : Int) ≤ (s.capacity : Int) := by exact_mod_cast hcap1
  nlinarith [hchain, hcap0, hnum, hden]

theorem int64SetInsert_mid (s : Int64Set) (hwf : SetWF s) :
    SetWF (setInsertMid s) ∧ (setInsertMid s).size = s.size ∧
    (setInsertMid s).loadFactor = s.loadFactor ∧
    occCount (setInsertMid s) < (setInsertMid s).capacity ∧
    (∀ κ : Int, occKeyCount (setInsertMid s) κ = occKeyCount s κ) ∧
    (NoTomb s → NoTomb (setInsertMid s)) ∧
    (setLoadExceeded s = true →
      ∀ κ : Int, 1 ≤ occKeyCount s κ → InsChain (setInsertMid s) κ) ∧
    (setLoadExceeded s = false → setInsertMid s = s) := by
  obtain ⟨hcap1, hsz, hszle, hnum, hden⟩ := hwf
  by_cases hl : setLoadExceeded s = true
  · have hmid : setInsertMid s = int64SetResize s (s.capacity * 2) := by
      unfold setInsertMid
      rw [if_pos hl]
    have h0 : 0 < s.capacity * 2 := by omega
    have hroom : occCount s < s.capacity * 2 := by omega
    obtain ⟨hr1, hr2, hr3, hr4, hr5, hr6, hr7⟩ := int64SetResize_spec s _ h0 hroom
    rw [hmid]
    refine ⟨⟨?_, ?_, ?_, ?_, ?_⟩, hr2, hr3, ?_, hr5, fun _ => hr7,
      fun _ => hr6, ?_⟩
    · rw [hr1]; omega
    · rw [hr2, hr4]; exact hsz
    · rw [hr2, hr1]; omega
    · rw [hr3]; exact hnum
    · rw [hr3]; exact hden
    · rw [hr4, hr1]; omega
    · intro hcon
      exact absurd hl (by rw [hcon]; simp)
  · have hlf : setLoadExceeded s = false := by
      rw [Bool.not_eq_true] at hl
      exact hl
    have hmid : setInsertMid s = s := by
      unfold setInsertMid
      rw [if_neg hl]
    have hlt := size_lt_of_not_exceeded s ⟨hcap1, hsz, hszle, hnum, hden⟩ hlf
    rw [hmid]
    exact ⟨⟨hcap1, hsz, hszle, hnum, hden⟩, rfl, rfl, by omega, fun κ => rfl,
      fun h => h, fun hcon => absurd hlf (by rw [hcon]; simp), fun _ => rfl⟩

theorem int64SetInsertA_true_eq (s : Int64Set) (k : Int) :
    int64SetInsertA true s k =
      match insProbeAux (setInsertMid s).slots (setInsertMid s).capacity k
          (int64Hash k % (setInsertMid s).capacity)
          (setInsertMid s).capacity 0 with
      | .occupy p =>
        ({ setInsertMid s with
            slots := setSlot (setInsertMid s).slots p
              { key := k, state := .OCCUPIED },
            size := (setInsertMid s).size + 1 }, true)
      | .present => (setInsertMid s, false)
      | .exhausted => (setInsertMid s, false) := by
  unfold int64SetInsertA
  rw [if_neg (fun h => h.2 rfl)]
  rfl

theorem occKey_pos_of_insChain (s : Int64Set) (k : Int) (h : InsChain s k) :
    1 ≤ occKeyCount s k := by
  rw [occKeyCount_eq_occKeyF]
  exact occKeyF_pos_of_insChainF s.slots s.capacity k h

theorem int64SetInsert_fresh (s : Int64Set) (k : Int) (hwf : SetWF s)
    (hk : occKeyCount s k = 0) :
    (int64SetInsert s k).2 = true ∧
    (int64SetInsert s k).1.size = s.size + 1 ∧
    SetWF (int64SetInsert s k).1 ∧
    (int64SetInsert s k).1.loadFactor = s.loadFactor ∧
    InsChain (int64SetInsert s k).1 k ∧
    occKeyCount (int64SetInsert s k).1 k = 1 ∧
    (∀ q : Int, q ≠ k →
      occKeyCount (int64SetInsert s k).1 q = occKeyCount s q) ∧
    (∀ q : Int, InsChain s q → InsChain (int64SetInsert s k).1 q) ∧
    (NoTomb s → NoTomb (int64SetInsert s k).1) ∧
    (setLoadExceeded s = true →
      ∀ q : Int, 1 ≤ occKeyCount s q → InsChain (int64SetInsert s k).1 q) ∧
    (setLoadExceeded s = false →
      (int64SetInsert s k).1.capacity = s.capacity ∧
      ∀ q : Int, KeyChainF s.slots s.capacity q →
        KeyChainF (int64SetInsert s k).1.slots
          (int64SetInsert s k).1.capacity q) := by
  obtain ⟨hm1, hm2, hm3, hm4, hm5, hm6, hm7, hm8⟩ := int64SetInsert_mid s hwf
  have hcap0 : 0 < (setInsertMid s).capacity := hm1.1
  have hknone : occKeyCount (setInsertMid s) k = 0 := by rw [hm5 k]; exact hk
  have hnok : ∀ q, q < (setInsertMid s).capacity →
      ¬ (((setInsertMid s).slots q).state = .OCCUPIED ∧
         ((setInsertMid s).slots q).key = k) := by
    intro q hq hcon
    have h1 : 1 ≤ occKeyCount (setInsertMid s) k := by
      rw [occKeyCount_eq_occKeyF]
      exact List.countP_pos_iff.mpr ⟨q, List.mem_range.mpr hq,
        by simp only [decide_eq_true_eq]; exact hcon⟩
    omega
  have hfree : ∃ q, q < (setInsertMid s).capacity ∧
      ((setInsertMid s).slots q).state ≠ .OCCUPIED := by
    obtain ⟨q, hq, hqs⟩ := exists_nonOcc_of_occF_lt (setInsertMid s).slots
      (setInsertMid s).capacity (by rw [← occCount_eq_occF]; exact hm4)
    exact ⟨q, hq, hqs⟩
  obtain ⟨j, hj, hprobe, hpfree, hppre⟩ := insProbeAux_occupy_of
    (setInsertMid s).slots (setInsertMid s).capacity k hcap0 hnok hfree
  have hplt : (int64Hash k % (setInsertMid s).capacity + j) %
      (setInsertMid s).capacity < (setInsertMid s).capacity :=
    Nat.mod_lt _ hcap0
  have heq : int64SetInsert s k =
      ({ setInsertMid s with
          slots := setSlot (setInsertMid s).slots
            ((int64Hash k % (setInsertMid s).capacity + j) %
              (setInsertMid s).capacity) { key := k, state := .OCCUPIED },
          size := (setInsertMid s).size + 1 }, true) := by
    show int64SetInsertA true s k = _
    rw [int64SetInsertA_true_eq, hprobe]
  have hoccset := occF_setSlot (setInsertMid s).slots
    ((int64Hash k % (setInsertMid s).capacity + j) % (setInsertMid s).capacity)
    { key := k, state := .OCCUPIED } (setInsertMid s).capacity hplt
  rw [if_neg hpfree, if_pos (show ({ key := k, state := .OCCUPIED } :
    HashSlot).state = .OCCUPIED from rfl)] at hoccset
  have hkeyset := fun (q : Int) => occKeyF_setSlot (setInsertMid s).slots
    ((int64Hash k % (setInsertMid s).capacity + j) % (setInsertMid s).capacity)
    { key := k, state := .OCCUPIED } (setInsertMid s).capacity hplt q
  have hchainmid : ∀ q : Int, InsChain s q → InsChain (setInsertMid s) q := by
    intro q hq
    by_cases hl : setLoadExceeded s = true
    · exact hm7 hl q (occKey_pos_of_insChain s q hq)
    · rw [hm8 (by rw [Bool.not_eq_true] at hl; exact hl)]
      exact hq
  have hf1 : (int64SetInsert s k).1.slots =
      setSlot (setInsertMid s).slots
        ((int64Hash k % (setInsertMid s).capacity + j) %
          (setInsertMid s).capacity)
        { key := k, state := .OCCUPIED } := by rw [heq]
  have hf2 : (int64SetInsert s k).1.size = (setInsertMid s).size + 1 := by
    rw [heq]
  have hf3 : (int64SetInsert s k).1.capacity = (setInsertMid s).capacity := by
    rw [heq]
  have hf4 : (int64SetInsert s k).1.loadFactor =
      (setInsertMid s).loadFactor := by rw [heq]
  have hf5 : (int64SetInsert s k).2 = true := by rw [heq]
  obtain ⟨hw1, hw2, hw3, hw4, hw5⟩ := hm1
  have hoccr : occCount (int64SetInsert s k).1 =
      occCount (setInsertMid s) + 1 := by
    rw [occCount_eq_occF, hf1, hf3, occCount_eq_occF]
    omega
  have hkeyr : ∀ q : Int, occKeyCount (int64SetInsert s k).1 q =
      occKeyCount (setInsertMid s) q + (if k = q then 1 else 0) := by
    intro q
    have h2 := hkeyset q
    rw [if_neg (fun hh => hpfree hh.1)] at h2
    rw [occKeyCount_eq_occKeyF, hf1, hf3, occKeyCount_eq_occKeyF]
    by_cases hkq : k = q
    · rw [if_pos (show (({ key := k, state := .OCCUPIED } : HashSlot).state
          = .OCCUPIED) ∧ (({ key := k, state := .OCCUPIED } :
          HashSlot).key = q) from ⟨rfl, hkq⟩)] at h2
      rw [if_pos hkq]
      omega
    · rw [if_neg (fun hh => hkq hh.2)] at h2
      rw [if_neg hkq]
      omega
  refine ⟨hf5, by rw [hf2, hm2], ⟨?_, ?_, ?_, ?_, ?_⟩, by rw [hf4, hm3],
    ?_, ?_, ?_, ?_, ?_, ?_, ?_⟩
  · rw [hf3]
    exact hw1
  · rw [hf2, hoccr, hw2]
  · rw [hf2, hf3]
    omega
  · rw [hf4]
    exact hw4
  · rw [hf4]
    exact hw5
  · unfold InsChain
    rw [hf1, hf3]
    refine ⟨j, hj, ?_, ?_, fun j2 hj2 => ?_⟩
    · unfold setSlot
      rw [if_pos rfl]
    · unfold setSlot
      rw [if_pos rfl]
    · unfold setSlot
      have hne2 : (int64Hash k % (setInsertMid s).capacity + j2) %
          (setInsertMid s).capacity ≠
          (int64Hash k % (setInsertMid s).capacity + j) %
          (setInsertMid s).capacity := by
        intro hh
        exact hpfree (hh ▸ hppre j2 hj2)
      rw [if_neg hne2]
      exact hppre j2 hj2
  · rw [hkeyr k, if_pos rfl, hknone]
  · intro q hq
    rw [hkeyr q, if_neg (fun hh => hq hh.symm)]
    have h5 := hm5 q
    omega
  · intro q hq
    unfold InsChain
    rw [hf1, hf3]
    exact insChainF_setSlot_nonOcc (setInsertMid s).slots
      (setInsertMid s).capacity q _ k (hchainmid q hq) hpfree
  · intro hnt
    unfold NoTomb NoTombF
    intro p hp
    rw [hf3] at hp
    rw [hf1]
    unfold setSlot
    by_cases hh : p = (int64Hash k % (setInsertMid s).capacity + j) %
        (setInsertMid s).capacity
    · rw [if_pos hh]
      intro hd
      cases hd
    · rw [if_neg hh]
      exact hm6 hnt p hp
  · intro hl q hq
    unfold InsChain
    rw [hf1, hf3]
    exact insChainF_setSlot_nonOcc (setInsertMid s).slots
      (setInsertMid s).capacity q _ k (hm7 hl q hq) hpfree
  · intro hlf
    have hmids : setInsertMid s = s := hm8 hlf
    rw [hmids] at hf1 hf3 hpfree
    refine ⟨hf3, fun q hq => ?_⟩
    rw [hf1, hf3]
    exact keyChainF_setSlot_nonOcc s.slots s.capacity q _ _ hq hpfree
      (by intro hh; cases hh)

theorem int64SetInsert_present (s : Int64Set) (k : Int) (hwf : SetWF s)
    (hchain : InsChain s k) :
    (int64SetInsert s k).2 = false ∧
    (int64SetInsert s k).1.size = s.size ∧
    SetWF (int64SetInsert s k).1 ∧
    (int64SetInsert s k).1.loadFactor = s.loadFactor ∧
    (∀ q : Int, occKeyCount (int64SetInsert s k).1 q = occKeyCount s q) := by
  obtain ⟨hm1, hm2, hm3, hm4, hm5, hm6, hm7, hm8⟩ := int64SetInsert_mid s hwf
  have hchainmid : InsChain (setInsertMid s) k := by
    by_cases hl : setLoadExceeded s = true
    · exact hm7 hl k (occKey_pos_of_insChain s k hchain)
    · rw [hm8 (by rw [Bool.not_eq_true] at hl; exact hl)]
      exact hchain
  have hprobe := insProbeAux_present_of_chain (setInsertMid s).slots
    (setInsertMid s).capacity k hchainmid
  have heq : int64SetInsert s k = (setInsertMid s, false) := by
    show int64SetInsertA true s k = _
    rw [int64SetInsertA_true_eq, hprobe]
  rw [heq]
  exact ⟨rfl, hm2, hm1, hm3, hm5⟩

theorem int64SetInsert_wf (s : Int64Set) (k : Int) (hwf : SetWF s) :
    SetWF (int64SetInsert s k).1 ∧
    (int64SetInsert s k).1.loadFactor = s.loadFactor := by
  obtain ⟨hm1, hm2, hm3, hm4, hm5, hm6, hm7, hm8⟩ := int64SetInsert_mid s hwf
  obtain ⟨hw1, hw2, hw3, hw4, hw5⟩ := hm1
  cases hprobe : insProbeAux (setInsertMid s).slots (setInsertMid s).capacity k
      (int64Hash k % (setInsertMid s).capacity)
      (setInsertMid s).capacity 0 with
  | present =>
    have heq : int64SetInsert s k = (setInsertMid s, false) := by
      show int64SetInsertA true s k = _
      rw [int64SetInsertA_true_eq, hprobe]
    rw [heq]
    exact ⟨⟨hw1, hw2, hw3, hw4, hw5⟩, hm3⟩
  | exhausted =>
    have heq : int64SetInsert s k = (setInsertMid s, false) := by
      show int64SetInsertA true s k = _
      rw [int64SetInsertA_true_eq, hprobe]
    rw [heq]
    exact ⟨⟨hw1, hw2, hw3, hw4, hw5⟩, hm3⟩
  | occupy p =>
    obtain ⟨hplt, hpfree⟩ := insProbeAux_occupy_lt (setInsertMid s).slots
      (setInsertMid s).capacity k (int64Hash k % (setInsertMid s).capacity)
      hw1 _ _ _ hprobe
    have heq : int64SetInsert s k =
        ({ setInsertMid s with
            slots := setSlot (setInsertMid s).slots p
              { key := k, state := .OCCUPIED },
            size := (setInsertMid s).size + 1 }, true) := by
      show int64SetInsertA true s k = _
      rw [int64SetInsertA_true_eq, hprobe]
    have hf1 : (int64SetInsert s k).1.slots =
        setSlot (setInsertMid s).slots p { key := k, state := .OCCUPIED } := by
      rw [heq]
    have hf2 : (int64SetInsert s k).1.size = (setInsertMid s).size + 1 := by
      rw [heq]
    have hf3 : (int64SetInsert s k).1.capacity =
        (setInsertMid s).capacity := by rw [heq]
    have hf4 : (int64SetInsert s k).1.loadFactor =
        (setInsertMid s).loadFactor := by rw [heq]
    have hoccset := occF_setSlot (setInsertMid s).slots p
      { key := k, state := .OCCUPIED } (setInsertMid s).capacity hplt
    rw [if_neg hpfree, if_pos (show ({ key := k, state := .OCCUPIED } :
      HashSlot).state = .OCCUPIED from rfl)] at hoccset
    have hoccr : occCount (int64SetInsert s k).1 =
        occCount (setInsertMid s) + 1 := by
      rw [occCount_eq_occF, hf1, hf3, occCount_eq_occF]
      omega
    refine ⟨⟨?_, ?_, ?_, ?_, ?_⟩, by rw [hf4, hm3]⟩
    · rw [hf3]
      exact hw1
    · rw [hf2, hoccr, hw2]
    · rw [hf2, hf3]
      omega
    · rw [hf4]
      exact hw4
    · rw [hf4]
      exact hw5

theorem int64SetRemove_wf (s : Int64Set) (k : Int) (hwf : SetWF s) :
    SetWF (int64SetRemove s k).1 ∧
    (int64SetRemove s k).1.loadFactor = s.loadFactor := by
  obtain ⟨hcap1, hsz, hszle, hnum, hden⟩ := hwf
  cases hprobe : remProbeAux s.slots s.capacity k (int64Hash k % s.capacity)
      s.capacity 0 with
  | none =>
    have heq : int64SetRemove s k = (s, false) := by
      unfold int64SetRemove
      rw [hprobe]
    rw [heq]
    exact ⟨⟨hcap1, hsz, hszle, hnum, hden⟩, rfl⟩
  | some p =>
    obtain ⟨hplt, hpocc, hpkey⟩ := remProbeAux_some_spec s.slots s.capacity k
      (int64Hash k % s.capacity) (by omega) _ _ _ hprobe
    have heq : int64SetRemove s k =
        ({ s with slots := setSlot s.slots p { key := (s.slots p).key, state := .DELETED }, size := s.size - 1 }, true) := by
      unfold int64SetRemove
      rw [hprobe]
    have hf1 : (int64SetRemove s k).1.slots =
        setSlot s.slots p { key := (s.slots p).key, state := .DELETED } := by
      rw [heq]
    have hf2 : (int64SetRemove s k).1.size = s.size - 1 := by rw [heq]
    have hf3 : (int64SetRemove s k).1.capacity = s.capacity := by rw [heq]
    have hf4 : (int64SetRemove s k).1.loadFactor = s.loadFactor := by rw [heq]
    have hocc1 : 1 ≤ occCount s := by
      rw [occCount_eq_occF]
      exact List.countP_pos_iff.mpr ⟨p, List.mem_range.mpr hplt,
        by simp only [decide_eq_true_eq]; exact hpocc⟩
    have hset := occF_setSlot s.slots p
      { key := (s.slots p).key, state := .DELETED } s.capacity hplt
    have hdne : ¬ (({ key := (s.slots p).key, state := .DELETED } : HashSlot).state = .OCCUPIED) :=
      fun hh => by cases hh
    rw [if_pos hpocc, if_neg hdne] at hset
    have hoccr : occCount (int64SetRemove s k).1 = occCount s - 1 := by
      rw [occCount_eq_occF, hf1, hf3, occCount_eq_occF]
      omega
    refine ⟨⟨?_, ?_, ?_, ?_, ?_⟩, hf4⟩
    · rw [hf3]
      exact hcap1
    · rw [hf2, hoccr, hsz]
    · rw [hf2, hf3]
      omega
    · rw [hf4]
      exact hnum
    · rw [hf4]
      exact hden

theorem int64SetRemove_of_chain (s : Int64Set) (k : Int)
    (hchain : InsChain s k) (hle : occKeyCount s k ≤ 1) (h0 : 0 < s.capacity) :
    (int64SetRemove s k).2 = true ∧
    (int64SetRemove s k).1.capacity = s.capacity ∧
    (int64SetRemove s k).1.loadFactor = s.loadFactor ∧
    (int64SetRemove s k).1.size = s.size - 1 ∧
    occKeyCount (int64SetRemove s k).1 k = 0 ∧
    (∀ q : Int, q ≠ k →
      occKeyCount (int64SetRemove s k).1 q = occKeyCount s q) ∧
    (∀ q : Int, q ≠ k → KeyChainF s.slots s.capacity q →
      KeyChainF (int64SetRemove s k).1.slots s.capacity q) := by
  obtain ⟨j, hj, hfound0, hocc0, hkey0, hpre⟩ :=
    remProbeAux_found_of_chain s.slots s.capacity k hchain
  obtain ⟨p, hplt, hfound, hocc, hkey⟩ : ∃ p, p < s.capacity ∧
      remProbeAux s.slots s.capacity k (int64Hash k % s.capacity)
        s.capacity 0 = some p ∧
      (s.slots p).state = .OCCUPIED ∧ (s.slots p).key = k :=
    ⟨(int64Hash k % s.capacity + j) % s.capacity, Nat.mod_lt _ h0,
      hfound0, hocc0, hkey0⟩
  have heq : int64SetRemove s k =
      ({ s with slots := setSlot s.slots p { key := (s.slots p).key, state := .DELETED }, size := s.size - 1 }, true) := by
    unfold int64SetRemove
    rw [hfound]
  have hf1 : (int64SetRemove s k).1.slots =
      setSlot s.slots p
        { key := (s.slots p).key, state := .DELETED } := by rw [heq]
  have hf2 : (int64SetRemove s k).1.size = s.size - 1 := by rw [heq]
  have hf3 : (int64SetRemove s k).1.capacity = s.capacity := by rw [heq]
  have hf4 : (int64SetRemove s k).1.loadFactor = s.loadFactor := by rw [heq]
  have hf5 : (int64SetRemove s k).2 = true := by rw [heq]
  have hkey1 : 1 ≤ occKeyCount s k := occKey_pos_of_insChain s k hchain
  have hkeyset := fun (q : Int) => occKeyF_setSlot s.slots p
    { key := (s.slots p).key, state := .DELETED } s.capacity hplt q
  refine ⟨hf5, hf3, hf4, hf2, ?_, ?_, ?_⟩
  · have h2 := hkeyset k
    rw [if_pos ⟨hocc, hkey⟩,
      if_neg (fun hh => by cases hh.1)] at h2
    rw [occKeyCount_eq_occKeyF, hf1, hf3]
    rw [occKeyCount_eq_occKeyF] at hkey1 hle
    omega
  · intro q hq
    have h2 := hkeyset q
    rw [if_neg (fun hh => hq ((hkey ▸ hh.2).symm)),
      if_neg (fun hh => by cases hh.1)] at h2
    rw [occKeyCount_eq_occKeyF, hf1, hf3, occKeyCount_eq_occKeyF]
    omega
  · intro q hq hqchain
    rw [hf1]
    exact keyChainF_setSlot_otherKey s.slots s.capacity q _ _ hqchain
      (by rw [hkey]; exact fun hh => hq hh.symm)
      (by intro hh; cases hh)

theorem int64SetNew_counts (cap : Nat) (lf : ℚ) :
    occCount (int64SetNew cap lf) = 0 ∧
    (∀ κ : Int, occKeyCount (int64SetNew cap lf) κ = 0) ∧
    NoTomb (int64SetNew cap lf) := by
  refine ⟨?_, fun κ => ?_, ?_⟩
  · rw [occCount_eq_occF]
    unfold occF
    rw [List.countP_eq_zero]
    intro a _
    simp [int64SetNew]
  · rw [occKeyCount_eq_occKeyF]
    unfold occKeyF
    rw [List.countP_eq_zero]
    intro a _
    simp [int64SetNew]
  · unfold NoTomb NoTombF
    intro p _
    show (({ key := 0, state := .EMPTY } : HashSlot)).state ≠ .DELETED
    intro hh
    cases hh

theorem runSetOps_wf (cap : Nat) (lf : ℚ) (ops : List SetOp) (hcap : 1 ≤ cap)
    (hnum : 0 < lf.num) (hden : lf.num < (lf.den : Int)) :
    SetWF (runSetOps cap lf ops) ∧ (runSetOps cap lf ops).loadFactor = lf := by
  obtain ⟨hc0, _, _⟩ := int64SetNew_counts cap lf
  have hinit : SetWF (int64SetNew cap lf) := by
    refine ⟨hcap, ?_, Nat.zero_le _, hnum, hden⟩
    show 0 = occCount (int64SetNew cap lf)
    omega
  have main : ∀ (l : List SetOp) (s : Int64Set), SetWF s → s.loadFactor = lf →
      SetWF (l.foldl applySetOp s) ∧ (l.foldl applySetOp s).loadFactor = lf := by
    intro l
    induction l with
    | nil => intro s h1 h2; exact ⟨h1, h2⟩
    | cons op t ih =>
      intro s h1 h2
      cases op with
      | insert k =>
        have h3 := int64SetInsert_wf s k h1
        exact ih _ h3.1
          (by show (int64SetInsert s k).1.loadFactor = lf; rw [h3.2]; exact h2)
      | remove k =>
        have h3 := int64SetRemove_wf s k h1
        exact ih _ h3.1
          (by show (int64SetRemove s k).1.loadFactor = lf; rw [h3.2]; exact h2)
  exact main ops _ hinit rfl

theorem int64SetInsertAll_inv (lf : ℚ) :
    ∀ (l : List Int) (s : Int64Set) (done : List Int),
    SetWF s → s.loadFactor = lf → NoTomb s →
    (∀ κ ∈ done, InsChain s κ) →
    (∀ κ : Int, occKeyCount s κ ≤ 1) →
    (∀ κ : Int, κ ∉ done → occKeyCount s κ = 0) →
    l.Nodup → (∀ κ ∈ l, κ ∉ done) →
    SetWF (int64SetInsertAll s l) ∧
    (int64SetInsertAll s l).loadFactor = lf ∧
    NoTomb (int64SetInsertAll s l) ∧
    (∀ κ : Int, κ ∈ done ∨ κ ∈ l → InsChain (int64SetInsertAll s l) κ) ∧
    (∀ κ : Int, occKeyCount (int64SetInsertAll s l) κ ≤ 1) ∧
    (∀ κ : Int, ¬(κ ∈ done ∨ κ ∈ l) →
      occKeyCount (int64SetInsertAll s l) κ = 0) := by
  intro l
  induction l with
  | nil =>
    intro s done h1 h2 h3 h4 h5 h6 _ _
    refine ⟨h1, h2, h3, ?_, h5, ?_⟩
    · intro κ hκ
      rcases hκ with h | h
      · exact h4 κ h
      · simp at h
    · intro κ hκ
      push_neg at hκ
      exact h6 κ hκ.1
  | cons k t ih =>
    intro s done h1 h2 h3 h4 h5 h6 hnd hnew
    have hkfresh : occKeyCount s k = 0 := h6 k (hnew k (List.mem_cons_self k t))
    obtain ⟨hi1, hi2, hi3, hi4, hi5, hi6, hi7, hi8, hi9, hi10, hi11⟩ :=
      int64SetInsert_fresh s k h1 hkfresh
    have step : int64SetInsertAll s (k :: t) =
        int64SetInsertAll (int64SetInsert s k).1 t := rfl
    rw [step]
    have hmain := ih (int64SetInsert s k).1 (k :: done)
      hi3 (by rw [hi4]; exact h2) (hi9 h3)
      (fun κ hκ => by
        rcases List.mem_cons.mp hκ with h | h
        · rw [h]; exact hi5
        · exact hi8 κ (h4 κ h))
      (fun κ => by
        by_cases hκ : κ = k
        · rw [hκ]; omega
        · rw [hi7 κ hκ]; exact h5 κ)
      (fun κ hκ => by
        have hκ1 : κ ≠ k := fun hh => hκ (hh ▸ List.mem_cons_self k done)
        have hκ2 : κ ∉ done := fun hh => hκ (List.mem_cons_of_mem k hh)
        rw [hi7 κ hκ1]
        exact h6 κ hκ2)
      (List.nodup_cons.mp hnd).2
      (fun κ hκ => by
        intro hcon
        rcases List.mem_cons.mp hcon with h | h
        · rw [h] at hκ; exact (List.nodup_cons.mp hnd).1 hκ
        · exact hnew κ (List.mem_cons_of_mem k hκ) h)
    obtain ⟨hr1, hr2, hr3, hr4, hr5, hr6⟩ := hmain
    refine ⟨hr1, hr2, hr3, ?_, hr5, ?_⟩
    · intro κ hκ
      apply hr4
      rcases hκ with h | h
      · exact Or.inl (List.mem_cons_of_mem k h)
      · rcases List.mem_cons.mp h with h2 | h2
        · exact Or.inl (h2 ▸ List.mem_cons_self k done)
        · exact Or.inr h2
    · intro κ hκ
      apply hr6
      push_neg at hκ ⊢
      obtain ⟨ha, hb⟩ := hκ
      constructor
      · intro hcon
        rcases List.mem_cons.mp hcon with h | h
        · exact hb (h ▸ List.mem_cons_self k t)
        · exact ha h
      · intro hcon
        exact hb (List.mem_cons_of_mem k hcon)

/-- C2: tombstone correctness of the open-addressing set.  For distinct keys
inserted into a set of positive capacity and load factor in `(0,1)`, removing
one key `ki` (leaving a `DELETED` tombstone) and reinserting it leaves
`contains` answering `true` for every other inserted key `kj`: the tombstone
never breaks another probe chain, because `contains` skips any non-`EMPTY`
slot, the reinsert either refills the first free (tombstoned) probe slot of
`ki` or triggers a resize that rebuilds tombstone-free chains for every
occupied key. -/
theorem set_tombstone_correctness (cap : Nat) (lf : ℚ) (keys : List Int)
    (ki kj : Int) (hcap : 1 ≤ cap) (hlf0 : 0 < lf) (hlf1 : lf < 1)
    (hnd : keys.Nodup) (hki : ki ∈ keys) (hkj : kj ∈ keys) (hne : kj ≠ ki) :
    int64SetContains
      (int64SetInsert
        ((int64SetRemove (int64SetInsertAll (int64SetNew cap lf) keys) ki).1)
        ki).1 kj = true := by
  have hnum : 0 < lf.num := Rat.num_pos.mpr hlf0
  have hden : lf.num < (lf.den : Int) := Rat.lt_one_iff_num_lt_denom.mp hlf1
  obtain ⟨hc0, hck0, hnt0⟩ := int64SetNew_counts cap lf
  have hwf0 : SetWF (int64SetNew cap lf) := by
    refine ⟨hcap, ?_, Nat.zero_le _, hnum, hden⟩
    show 0 = occCount (int64SetNew cap lf)
    omega
  obtain ⟨hA1, hA2, hA3, hA4, hA5, hA6⟩ := int64SetInsertAll_inv lf keys
    (int64SetNew cap lf) [] hwf0 rfl hnt0
    (fun κ hκ => absurd hκ (List.not_mem_nil κ))
    (fun κ => by rw [hck0 κ]; omega)
    (fun κ _ => hck0 κ)
    hnd (fun κ _ => List.not_mem_nil κ)
  have hchaini : InsChain (int64SetInsertAll (int64SetNew cap lf) keys) ki :=
    hA4 ki (Or.inr hki)
  have hchainj : InsChain (int64SetInsertAll (int64SetNew cap lf) keys) kj :=
    hA4 kj (Or.inr hkj)
  have h0cap : 0 < (int64SetInsertAll (int64SetNew cap lf) keys).capacity :=
    hA1.1
  obtain ⟨hR1, hR2, hR3, hR4, hR5, hR6, hR7⟩ := int64SetRemove_of_chain
    (int64SetInsertAll (int64SetNew cap lf) keys) ki hchaini (hA5 ki) h0cap
  obtain ⟨hwf1, _⟩ := int64SetRemove_wf
    (int64SetInsertAll (int64SetNew cap lf) keys) ki hA1
  obtain ⟨hI1, hI2, hI3, hI4, hI5, hI6, hI7, hI8, hI9, hI10, hI11⟩ :=
    int64SetInsert_fresh
      ((int64SetRemove (int64SetInsertAll (int64SetNew cap lf) keys) ki).1)
      ki hwf1 hR5
  have hkj1 : 1 ≤ occKeyCount
      ((int64SetRemove (int64SetInsertAll (int64SetNew cap lf) keys) ki).1)
      kj := by
    rw [hR6 kj hne]
    exact occKey_pos_of_insChain _ kj hchainj
  have hchainfinal : KeyChainF
      (int64SetInsert
        ((int64SetRemove (int64SetInsertAll (int64SetNew cap lf) keys) ki).1)
        ki).1.slots
      (int64SetInsert
        ((int64SetRemove (int64SetInsertAll (int64SetNew cap lf) keys) ki).1)
        ki).1.capacity kj := by
    by_cases hl : setLoadExceeded
        ((int64SetRemove (int64SetInsertAll (int64SetNew cap lf) keys) ki).1)
        = true
    · exact keyChainF_of_insChainF _ _ kj (hI10 hl kj hkj1)
    · obtain ⟨hcapeq, htrans⟩ :=
        hI11 (by rw [Bool.not_eq_true] at hl; exact hl)
      apply htrans kj
      have hweak := hR7 kj hne (keyChainF_of_insChainF _ _ kj hchainj)
      rw [← hR2] at hweak
      exact hweak
  exact containsAux_true_of_chain _ _ _ hchainfinal

theorem set_tombstone_correctness_witness :
    int64SetContains
      (int64SetInsert
        ((int64SetRemove
          (int64SetInsertAll (int64SetNew 10 (mkRat 3 4)) [1, 2, 3]) 2).1)
        2).1 1 = true :=
  set_tombstone_correctness 10 (mkRat 3 4) [1, 2, 3] 2 1 (by decide)
    (by decide) (by decide) (by decide) (by decide) (by decide) (by decide)

/-- C3 (amended): the insert-twice behaviour claimed for every reachable
state does hold whenever the inserted key is *absent* (no `OCCUPIED` slot
holds it): the first insert returns `true`, the immediately following
second insert reports the key already present (`false`), and `size` grows
by exactly one across the pair.  (The original claim's universal
quantification over reachable states fails: in the counterexample state
the key is already present and the pair leaves `size` unchanged.) -/
theorem set_idempotence_amended (cap : Nat) (lf : ℚ) (ops : List SetOp)
    (k : Int) (hcap : 1 ≤ cap) (hlf0 : 0 < lf) (hlf1 : lf < 1)
    (hfresh : NoOccKey (runSetOps cap lf ops) k) :
    (int64SetInsert (runSetOps cap lf ops) k).2 = true ∧
    (int64SetInsert (int64SetInsert (runSetOps cap lf ops) k).1 k).2 = false ∧
    (int64SetInsert (int64SetInsert (runSetOps cap lf ops) k).1 k).1.size =
      (runSetOps cap lf ops).size + 1 := by
  have hnum : 0 < lf.num := Rat.num_pos.mpr hlf0
  have hden : lf.num < (lf.den : Int) := Rat.lt_one_iff_num_lt_denom.mp hlf1
  obtain ⟨hwf, _⟩ := runSetOps_wf cap lf ops hcap hnum hden
  obtain ⟨h1, h2, h3, _, h5, _, _, _, _, _, _⟩ :=
    int64SetInsert_fresh (runSetOps cap lf ops) k hwf hfresh
  obtain ⟨p1, p2, _, _, _⟩ :=
    int64SetInsert_present (int64SetInsert (runSetOps cap lf ops) k).1 k h3 h5
  exact ⟨h1, p1, by rw [p2, h2]⟩

theorem set_idempotence_amended_witness :
    (int64SetInsert (runSetOps 10 (mkRat 3 4) []) 7).2 = true ∧
    (int64SetInsert (int64SetInsert (runSetOps 10 (mkRat 3 4) []) 7).1 7).2
      = false ∧
    (int64SetInsert (int64SetInsert (runSetOps 10 (mkRat 3 4) []) 7).1 7).1.size
      = (runSetOps 10 (mkRat 3 4) []).size + 1 :=
  set_idempotence_amended 10 (mkRat 3 4) [] 7 (by decide) (by decide)
    (by decide)
    (show occKeyCount (runSetOps 10 (mkRat 3 4) []) 7 = 0 by decide)

set_option maxRecDepth 8000 in
/-- C3 counterexample: in the reachable state that already contains key `5`
(capacity 10, load factor 3/4, one prior insert), the insert pair
`insert 5; insert 5` leaves `size` unchanged at 1 — it does not increase by
exactly 1 as the claim demands for *every* reachable state. -/
theorem set_idempotence_counterexample :
    (int64SetInsert (int64SetInsert
        (runSetOps 10 (mkRat 3 4) [SetOp.insert 5]) 5).1 5).1.size =
      (runSetOps 10 (mkRat 3 4) [SetOp.insert 5]).size ∧
    (runSetOps 10 (mkRat 3 4) [SetOp.insert 5]).size = 1 := by
  constructor
  · decide
  · decide
